import Mathlib

/-!
# Verification development for the go-outrights numerical engine

Shallow embedding of the core of the `go-outrights` repository
(score-distribution kernel, time-weighted 1X2 error function, evolutionary
ratings fitter, season Monte-Carlo position aggregation, market validation
and request pipeline), together with proofs settling the frozen claims
about its specification.

Go `float64` values are modelled as real numbers; Go maps from team name to
value are modelled as total functions `String → ℝ` (a missing key reads as
the zero value, exactly as a Go map read does); Go slices are modelled as
lists; fallible code is modelled with `Except String`.
-/

namespace Outrights

noncomputable section

/-! ## Score kernel (src/pkg/outrights/kernel.go, matrix.go) -/

/-- `factorial` from kernel.go: `if n <= 1 { return 1 }` then the running
product of `2..n` in `float64`. -/
noncomputable def factorial (n : ℕ) : ℝ :=
  ∏ i in Finset.Icc 2 n, (i : ℝ)

/-- `poissonProb` from kernel.go:
`math.Pow(lambda, float64(k)) * math.Exp(-lambda) / factorial(k)`. -/
noncomputable def poissonProb (lambda : ℝ) (k : ℕ) : ℝ :=
  lambda ^ k * Real.exp (-lambda) / factorial k

/-- `dixonColesAdjustment` from kernel.go, including the degenerate
`1 - (float64(i*j) * rho)` branch at `(0,0)`. -/
def dixonColesAdjustment (i j : ℕ) (rho : ℝ) : ℝ :=
  if i = 0 ∧ j = 0 then 1 - ((i * j : ℕ) : ℝ) * rho
  else if i = 0 ∧ j = 1 then 1 + rho / 2
  else if i = 1 ∧ j = 0 then 1 + rho / 2
  else if i = 1 ∧ j = 1 then 1 - rho
  else 1

/-- `DefaultRho = 0.1` from kernel.go. -/
def DefaultRho : ℝ := 0.1

/-- `DefaultN = 11` from kernel.go. -/
def DefaultN : ℕ := 11

/-- One cell of the score matrix as filled by `initMatrix` in kernel.go:
`sm.Matrix[i][j] = homeProb * awayProb * adjustment`. -/
noncomputable def matrixCell (lamH lamA rho : ℝ) (i j : ℕ) : ℝ :=
  poissonProb lamH i * poissonProb lamA j * dixonColesAdjustment i j rho

/-- The Dixon–Coles `τ` exactly as the spec's §4.1 table words it:
`τ(0,1)=τ(1,0)=1+ρ/2`, `τ(1,1)=1−ρ`, `τ=1` for all other cells, with the
`(0,0)` cell collapsing to `1` (the behaviour the spec says MUST be
preserved). -/
def tauSpec (i j : ℕ) (rho : ℝ) : ℝ :=
  if i = 0 ∧ j = 1 then 1 + rho / 2
  else if i = 1 ∧ j = 0 then 1 + rho / 2
  else if i = 1 ∧ j = 1 then 1 - rho
  else 1

/-- C1: for every score-matrix build (ρ = 0.1, N = 11), cell `(i,j)` equals
`P_Poisson(λ_h,i) · P_Poisson(λ_a,j) · τ(i,j,ρ)` with
`τ(0,1)=τ(1,0)=1+ρ/2`, `τ(1,1)=1−ρ` and `τ=1` elsewhere; the `(0,0)` factor
is the degenerate form `1 − i·j·ρ`, which evaluates to `1` at `(0,0)`. -/
theorem C1_matrix_cell (lamH lamA : ℝ) (i j : ℕ) (hi : i < DefaultN) (hj : j < DefaultN) :
    matrixCell lamH lamA DefaultRho i j
      = poissonProb lamH i * poissonProb lamA j * tauSpec i j DefaultRho ∧
    dixonColesAdjustment 0 0 DefaultRho = 1 - ((0 * 0 : ℕ) : ℝ) * DefaultRho ∧
    tauSpec 0 0 DefaultRho = 1 := by
  refine ⟨?_, ?_, ?_⟩
  · unfold matrixCell dixonColesAdjustment tauSpec
    by_cases h00 : i = 0 ∧ j = 0
    · obtain ⟨h1, h2⟩ := h00
      subst h1; subst h2
      norm_num
    · simp only [if_neg h00]
  · unfold dixonColesAdjustment
    norm_num
  · unfold tauSpec
    norm_num

/-- Witness for C1 at the concrete cell `(0,0)` of a concrete build. -/
theorem C1_matrix_cell_witness :
    matrixCell 1 1 DefaultRho 0 0
      = poissonProb 1 0 * poissonProb 1 0 * tauSpec 0 0 DefaultRho ∧
    dixonColesAdjustment 0 0 DefaultRho = 1 - ((0 * 0 : ℕ) : ℝ) * DefaultRho ∧
    tauSpec 0 0 DefaultRho = 1 :=
  C1_matrix_cell 1 1 0 0 (by norm_num [DefaultN]) (by norm_num [DefaultN])

/-! ## Events, event-name parsing, market-implied probabilities
(src/pkg/outrights/types.go, state.go, kernel.go) -/

/-- `Event` from types.go: name, ISO date, optional score, decimal 1X2
prices (the `MatchOdds.Prices` slice, inlined). -/
structure Event where
  name : String
  date : String
  score : List ℤ
  prices : List ℝ

instance : Inhabited Event := ⟨⟨"", "", [], []⟩⟩

/-- Character-level model of Go's `strings.Split` scan: at each position,
if the separator is a prefix, cut there and continue after it; the fuel
argument (instantiated with the string length) makes the recursion
structural. -/
def splitGo (sep : List Char) : ℕ → List Char → List Char → List (List Char)
  | 0, s, acc => [acc.reverse ++ s]
  | fuel + 1, s, acc =>
    match s with
    | [] => [acc.reverse]
    | c :: rest =>
      if sep.isPrefixOf (c :: rest) then
        acc.reverse :: splitGo sep fuel ((c :: rest).drop sep.length) []
      else splitGo sep fuel rest (c :: acc)

/-- `strings.Split(s, sep)` for a non-empty separator. -/
def goSplit (s sep : String) : List String :=
  (splitGo sep.toList s.toList.length s.toList []).map (fun cs => String.mk cs)

/-- `parseEventName` from state.go: split on the separator `" vs "`; any
name that does not split into exactly two parts yields `("", "")`. -/
def parseEventName (eventName : String) : String × String :=
  let parts := goSplit eventName " vs "
  if parts.length = 2 then (parts.getD 0 "", parts.getD 1 "") else ("", "")

/-- `ScoreMatrix` from kernel.go (the `Matrix` field is recovered by
`ScoreMatrix.cell` below, exactly the `initMatrix` fill). -/
structure ScoreMatrix where
  homeLambda : ℝ
  awayLambda : ℝ
  rho : ℝ
  n : ℕ

/-- `newScoreMatrix` from kernel.go: `λ_h = ratings[home] + homeAdvantage`,
`λ_a = ratings[away]`, `ρ = DefaultRho`, `N = DefaultN`. -/
def newScoreMatrix (eventName : String) (ratings : String → ℝ) (homeAdvantage : ℝ) :
    ScoreMatrix :=
  { homeLambda := ratings (parseEventName eventName).1 + homeAdvantage
    awayLambda := ratings (parseEventName eventName).2
    rho := DefaultRho
    n := DefaultN }

/-- Cell `(i,j)` of `sm.Matrix` as built by `initMatrix`. -/
def ScoreMatrix.cell (sm : ScoreMatrix) (i j : ℕ) : ℝ :=
  matrixCell sm.homeLambda sm.awayLambda sm.rho i j

/-- `ScoreMatrix.probability` from kernel.go: the masked sub-total of the
matrix. -/
def ScoreMatrix.probability (sm : ScoreMatrix) (maskFn : ℕ → ℕ → Bool) : ℝ :=
  ∑ i in Finset.range sm.n, ∑ j in Finset.range sm.n,
    if maskFn i j then sm.cell i j else 0

/-- `ScoreMatrix.matchOdds` from kernel.go: `[P(i>j), P(i=j), P(i<j)]`
divided by their sum. -/
def ScoreMatrix.matchOdds (sm : ScoreMatrix) : List ℝ :=
  let homeWin := sm.probability (fun i j => decide (j < i))
  let draw := sm.probability (fun i j => decide (i = j))
  let awayWin := sm.probability (fun i j => decide (i < j))
  let total := homeWin + draw + awayWin
  [homeWin / total, draw / total, awayWin / total]

/-- `extractMarketProbabilities` from kernel.go: reciprocals of the prices,
normalized by the overround. -/
def extractMarketProbabilities (event : Event) : List ℝ :=
  let probs := event.prices.map (fun price => 1 / price)
  let overround := probs.sum
  probs.map (fun q => q / overround)

/-- `rmsError` from math.go.  On a length mismatch Go returns `+Inf`; real
numbers have no infinity, so that (dead, in every use below the lengths
agree) branch is modelled as `0`. -/
def rmsError (x y : List ℝ) : ℝ :=
  if x.length ≠ y.length then 0
  else Real.sqrt (((x.zip y).map (fun p => (p.1 - p.2) ^ 2)).sum / (x.length : ℝ))

/-- `calculateTimePowerWeight` from math.go: guard `totalEvents <= 1`, else
`(eventIndex/(totalEvents-1))^power` (real exponent). -/
def calculateTimePowerWeight (eventIndex totalEvents : ℕ) (power : ℝ) : ℝ :=
  if totalEvents ≤ 1 then 1
  else ((eventIndex : ℝ) / ((totalEvents - 1 : ℕ) : ℝ)) ^ power

/-- The per-event model-vs-market error used by `calcError`
(src/unnamed/part_013): RMS distance between the kernel's normalized 1X2
and the overround-normalized market 1X2. -/
def eventError (ratings : String → ℝ) (homeAdvantage : ℝ) (event : Event) : ℝ :=
  rmsError (newScoreMatrix event.name ratings homeAdvantage).matchOdds
    (extractMarketProbabilities event)

/-- `calcError` from src/unnamed/part_013: power-weighted time average of
the per-event errors, with the `totalWeight == 0` guard returning `0`. -/
def calcError (events : List Event) (ratings : String → ℝ)
    (homeAdvantage timePowerWeighting : ℝ) : ℝ :=
  let M := events.length
  let totalWeightedError :=
    ∑ i in Finset.range M,
      eventError ratings homeAdvantage (events.getD i default) *
        calculateTimePowerWeight i M timePowerWeighting
  let totalWeight := ∑ i in Finset.range M, calculateTimePowerWeight i M timePowerWeighting
  if totalWeight = 0 then 0 else totalWeightedError / totalWeight

/-! ## C2: the error function -/

/-- The time weight exactly as the spec's §4.2 words it:
`w_i = (i/(M−1))^p if M>1 else 1`. -/
def specTimeWeight (i M : ℕ) (p : ℝ) : ℝ :=
  if M = 1 then 1 else ((i : ℝ) / ((M : ℝ) - 1)) ^ p

/-- The per-event error exactly as the spec's §4.2 words it:
`err_i = √( Σ_k (model_k − market_k)² / 3 )` over the three outcomes. -/
def specEventError (ratings : String → ℝ) (homeAdvantage : ℝ) (e : Event) : ℝ :=
  Real.sqrt ((∑ k in Finset.range 3,
      ((newScoreMatrix e.name ratings homeAdvantage).matchOdds.getD k 0
        - (extractMarketProbabilities e).getD k 0) ^ 2) / 3)

lemma calculateTimePowerWeight_eq_spec (i M : ℕ) (hM : 1 ≤ M) (p : ℝ) :
    calculateTimePowerWeight i M p = specTimeWeight i M p := by
  unfold calculateTimePowerWeight specTimeWeight
  rcases Nat.lt_or_ge M 2 with h | h
  · have hM1 : M = 1 := by omega
    subst hM1
    norm_num
  · have h1 : ¬ M ≤ 1 := by omega
    have h2 : M ≠ 1 := by omega
    rw [if_neg h1, if_neg h2, Nat.cast_sub hM, Nat.cast_one]

lemma calculateTimePowerWeight_nonneg (i M : ℕ) (p : ℝ) :
    0 ≤ calculateTimePowerWeight i M p := by
  unfold calculateTimePowerWeight
  split
  · norm_num
  · exact Real.rpow_nonneg (div_nonneg (Nat.cast_nonneg i) (Nat.cast_nonneg _)) p

lemma calculateTimePowerWeight_last (M : ℕ) (hM : 1 ≤ M) (p : ℝ) :
    calculateTimePowerWeight (M - 1) M p = 1 := by
  unfold calculateTimePowerWeight
  rcases Nat.lt_or_ge M 2 with h | h
  · simp [show M ≤ 1 by omega]
  · have h1 : ¬ M ≤ 1 := by omega
    have hz : ((M - 1 : ℕ) : ℝ) ≠ 0 := by
      have hne : M - 1 ≠ 0 := by omega
      exact Nat.cast_ne_zero.mpr hne
    rw [if_neg h1, div_self hz, Real.one_rpow]

lemma totalWeight_pos (M : ℕ) (hM : 1 ≤ M) (p : ℝ) :
    0 < ∑ i in Finset.range M, calculateTimePowerWeight i M p := by
  have hmem : M - 1 ∈ Finset.range M := Finset.mem_range.mpr (by omega)
  have hle : calculateTimePowerWeight (M - 1) M p
      ≤ ∑ i in Finset.range M, calculateTimePowerWeight i M p :=
    Finset.single_le_sum (fun i _ => calculateTimePowerWeight_nonneg i M p) hmem
  rw [calculateTimePowerWeight_last M hM p] at hle
  linarith

lemma matchOdds_length (sm : ScoreMatrix) : sm.matchOdds.length = 3 := rfl

lemma rmsError_three (a b c d e f : ℝ) :
    rmsError [a, b, c] [d, e, f]
      = Real.sqrt (((a - d) ^ 2 + (b - e) ^ 2 + (c - f) ^ 2) / 3) := by
  unfold rmsError
  norm_num [List.zip]
  ring_nf

lemma eventError_eq_spec (ratings : String → ℝ) (ha : ℝ) (e : Event)
    (h3 : e.prices.length = 3) :
    eventError ratings ha e = specEventError ratings ha e := by
  have hm : (extractMarketProbabilities e).length = 3 := by
    simp [extractMarketProbabilities, h3]
  obtain ⟨d, ee, f, hdef⟩ := List.length_eq_three.mp hm
  obtain ⟨x, y, z, hodds⟩ :=
    List.length_eq_three.mp (matchOdds_length (newScoreMatrix e.name ratings ha))
  unfold eventError specEventError
  rw [hdef, hodds, rmsError_three]
  have hsum : (∑ k in Finset.range 3,
      (([x, y, z] : List ℝ).getD k 0 - ([d, ee, f] : List ℝ).getD k 0) ^ 2)
      = (x - d) ^ 2 + (y - ee) ^ 2 + (z - f) ^ 2 := by
    rw [Finset.sum_range_succ, Finset.sum_range_succ, Finset.sum_range_one]
    simp
  rw [hsum]

/-- C2: over an ordered training set of `M ≥ 1` events whose price triples
have length 3, `calcError` returns `(Σ w_i·err_i)/(Σ w_i)` with
`err_i` the RMS distance over the three outcomes between the kernel's
normalized 1X2 and the overround-normalized market 1X2, and
`w_i = (i/(M−1))^p` for `M > 1`, `w_i = 1` for `M = 1`; in particular the
oldest event has weight 0 whenever `p > 0` and `M > 1`. -/
theorem C2_calcError_spec (events : List Event) (ratings : String → ℝ) (ha p : ℝ)
    (hne : events ≠ [])
    (hp3 : ∀ e ∈ events, e.prices.length = 3) :
    calcError events ratings ha p
      = (∑ i in Finset.range events.length,
          specTimeWeight i events.length p *
            specEventError ratings ha (events.getD i default))
        / (∑ i in Finset.range events.length, specTimeWeight i events.length p)
    ∧ (∀ i, calculateTimePowerWeight i events.length p = specTimeWeight i events.length p)
    ∧ (1 < events.length → 0 < p → calculateTimePowerWeight 0 events.length p = 0) := by
  have hM : 1 ≤ events.length := List.length_pos.mpr hne
  have hw : ∀ i, calculateTimePowerWeight i events.length p
      = specTimeWeight i events.length p :=
    fun i => calculateTimePowerWeight_eq_spec i events.length hM p
  refine ⟨?_, hw, ?_⟩
  · have hpos := totalWeight_pos events.length hM p
    unfold calcError
    rw [if_neg (ne_of_gt hpos)]
    have herr : ∀ i ∈ Finset.range events.length,
        eventError ratings ha (events.getD i default) *
            calculateTimePowerWeight i events.length p
          = specTimeWeight i events.length p *
              specEventError ratings ha (events.getD i default) := by
      intro i hi
      have hmem : events.getD i default ∈ events := by
        rw [List.getD_eq_get events default (Finset.mem_range.mp hi)]
        exact List.get_mem events i _
      rw [eventError_eq_spec ratings ha _ (hp3 _ hmem), hw i, mul_comm]
    rw [Finset.sum_congr rfl herr, Finset.sum_congr rfl (fun i _ => hw i)]
  · intro hM1 hp
    unfold calculateTimePowerWeight
    rw [if_neg (by omega)]
    rw [Nat.cast_zero, zero_div]
    exact Real.zero_rpow (ne_of_gt hp)

/-- Witness for C2 at a single concrete event. -/
theorem C2_calcError_spec_witness :
    ([⟨"A vs B", "2024-01-01", [], [2, 3, 4]⟩] : List Event) ≠ [] ∧
    (calcError [⟨"A vs B", "2024-01-01", [], [2, 3, 4]⟩] (fun _ => 1) 0 1
      = (∑ i in Finset.range 1,
          specTimeWeight i 1 1 *
            specEventError (fun _ => 1) 0
              (([⟨"A vs B", "2024-01-01", [], [2, 3, 4]⟩] : List Event).getD i default))
        / (∑ i in Finset.range 1, specTimeWeight i 1 1)) := by
  have h := C2_calcError_spec [⟨"A vs B", "2024-01-01", [], [2, 3, 4]⟩] (fun _ => 1) 0 1
    (by simp) (by intro e he; simp at he; subst he; rfl)
  exact ⟨by simp, by simpa using h.1⟩

/-! ## C5: remaining fixtures (src/pkg/outrights/state.go) -/

/-- The fixture string `homeTeam + " vs " + awayTeam` built by
`calcRemainingFixtures` for the index pair `(i,j)`. -/
def fixtureName (teamNames : List String) (i j : ℕ) : String :=
  teamNames.getD i "" ++ " vs " ++ teamNames.getD j ""

/-- The `playedCounts` map of `calcRemainingFixtures`: each event with a
length-2 score increments the count of its exact name. -/
def playedCount (events : List Event) (name : String) : ℕ :=
  (events.filter (fun e => e.score.length == 2 && e.name == name)).length

/-- `calcRemainingFixtures` from state.go: for every ordered index pair
`(i,j)` with `i ≠ j`, the inner loop `for k := playedCount; k < rounds`
emits `rounds - playedCount` copies (natural subtraction: zero when the
fixture was played at least `rounds` times). -/
def calcRemainingFixtures (teamNames : List String) (events : List Event) (rounds : ℕ) :
    List String :=
  (List.range teamNames.length).flatMap (fun i =>
    (List.range teamNames.length).flatMap (fun j =>
      if i ≠ j then
        List.replicate (rounds - playedCount events (fixtureName teamNames i j))
          (fixtureName teamNames i j)
      else []))

lemma count_bind_range (T : ℕ) (f : ℕ → List String) (s : String) :
    ((List.range T).flatMap f).count s = ∑ i in Finset.range T, (f i).count s := by
  induction T with
  | zero => simp
  | succ n ih =>
      rw [List.range_succ, List.flatMap_append, List.count_append, ih,
        Finset.sum_range_succ]
      simp

/-- C5 counterexample: with two already-played copies of `"A vs B"` and
`rounds = 1`, the code emits `0` copies, not `rounds − times_played = −1`:
the emitted count is not the integer difference the claim states. -/
theorem C5_counterexample :
    ((calcRemainingFixtures ["A", "B"]
        [⟨"A vs B", "d1", [1, 0], []⟩, ⟨"A vs B", "d2", [2, 0], []⟩] 1).count "A vs B" : ℤ)
      ≠ (1 : ℤ) - (playedCount
          [⟨"A vs B", "d1", [1, 0], []⟩, ⟨"A vs B", "d2", [2, 0], []⟩] "A vs B" : ℤ) := by
  decide

/-- C5 (amended): for every team list, event list and rounds value, and
every ordered pair of distinct team indices whose fixture string is not
also produced by any other index pair, the computation emits exactly
`max(0, rounds − times_already_played)` copies of that fixture, where a
fixture counts as played once per event with that exact name carrying a
length-2 score. -/
theorem C5_remaining_fixtures (teamNames : List String) (events : List Event)
    (rounds : ℕ) (i j : ℕ) (hi : i < teamNames.length) (hj : j < teamNames.length)
    (hij : i ≠ j)
    (hinj : ∀ i' < teamNames.length, ∀ j' < teamNames.length, i' ≠ j' →
      fixtureName teamNames i' j' = fixtureName teamNames i j → i' = i ∧ j' = j) :
    (calcRemainingFixtures teamNames events rounds).count (fixtureName teamNames i j)
      = rounds - playedCount events (fixtureName teamNames i j) := by
  unfold calcRemainingFixtures
  rw [count_bind_range]
  have hsingle : ∀ i' ∈ Finset.range teamNames.length, i' ≠ i →
      ((List.range teamNames.length).flatMap (fun j' =>
        if i' ≠ j' then
          List.replicate (rounds - playedCount events (fixtureName teamNames i' j'))
            (fixtureName teamNames i' j')
        else [])).count (fixtureName teamNames i j) = 0 := by
    intro i' hi' hne
    rw [count_bind_range]
    refine Finset.sum_eq_zero ?_
    intro j' hj'
    by_cases hcase : i' ≠ j'
    · rw [if_pos hcase, List.count_replicate]
      have : ¬ (fixtureName teamNames i' j' = fixtureName teamNames i j) := by
        intro heq
        exact hne ((hinj i' (Finset.mem_range.mp hi') j' (Finset.mem_range.mp hj') hcase heq).1)
      simp [this]
    · rw [if_neg hcase]
      simp
  rw [Finset.sum_eq_single i]
  · rw [count_bind_range]
    rw [Finset.sum_eq_single j]
    · rw [if_pos hij, List.count_replicate]
      simp
    · intro j' hj' hne
      by_cases hcase : i ≠ j'
      · rw [if_pos hcase, List.count_replicate]
        have : ¬ (fixtureName teamNames i j' = fixtureName teamNames i j) := by
          intro heq
          exact hne ((hinj i hi j' (Finset.mem_range.mp hj') hcase heq).2)
        simp [this]
      · rw [if_neg hcase]
        simp
    · intro habs
      exact absurd (Finset.mem_range.mpr hj) habs
  · exact hsingle
  · intro habs
    exact absurd (Finset.mem_range.mpr hi) habs

/-- Witness for C5: two teams, nothing played, one round: one copy each way. -/
theorem C5_remaining_fixtures_witness :
    (0 : ℕ) < 2 ∧ (1 : ℕ) < 2 ∧
    (calcRemainingFixtures ["A", "B"] [] 1).count (fixtureName ["A", "B"] 0 1)
      = 1 - playedCount [] (fixtureName ["A", "B"] 0 1) := by
  refine ⟨by norm_num, by norm_num, ?_⟩
  exact C5_remaining_fixtures ["A", "B"] [] 1 0 1 (by norm_num) (by norm_num)
    (by norm_num) (by decide)

/-! ## Markets (src/pkg/outrights/markets.go) and the Simulate pipeline
(src/pkg/outrights/api.go) -/

/-- `Market` from types.go.  The Go fields `Include`/`Exclude` are named
`includeTeams`/`excludeTeams` here. -/
structure Market where
  name : String
  payoff : String
  parsedPayoff : List ℤ
  teams : List String
  includeTeams : List String
  excludeTeams : List String

/-- The digit-scanning loop of Go's `strconv.Atoi`. -/
def digitsValGo : List Char → ℕ → Option ℕ
  | [], acc => some acc
  | c :: rest, acc =>
      if 48 ≤ c.toNat ∧ c.toNat ≤ 57 then digitsValGo rest (acc * 10 + (c.toNat - 48))
      else none

/-- `strconv.Atoi`: optional sign followed by at least one digit. -/
def goAtoi (s : String) : Option ℤ :=
  match s.toList with
  | [] => none
  | '+' :: rest => if rest = [] then none else (digitsValGo rest 0).map (fun n => (n : ℤ))
  | '-' :: rest => if rest = [] then none else (digitsValGo rest 0).map (fun n => -(n : ℤ))
  | l => (digitsValGo l 0).map (fun n => (n : ℤ))

/-- One `|`-separated token of `parsePayoff` (markets.go): either a single
value (one copy) or `n x v` (`n` copies of `v`; Go's `for i := 0; i < n`
emits none for negative `n`, hence `Int.toNat`). -/
def parsePayoffToken (expr : String) : Except String (List ℤ) :=
  let tokens := goSplit expr "x"
  if tokens.length = 1 then
    match goAtoi (tokens.getD 0 "") with
    | some v => .ok [v]
    | none => .error ("invalid payoff format: " ++ expr)
  else if tokens.length = 2 then
    match goAtoi (tokens.getD 0 ""), goAtoi (tokens.getD 1 "") with
    | some n, some v => .ok (List.replicate n.toNat v)
    | _, _ => .error ("invalid payoff format: " ++ expr)
  else .error ("invalid payoff format: " ++ expr)

def parsePayoffAux : List String → List ℤ → Except String (List ℤ)
  | [], acc => .ok acc
  | expr :: rest, acc =>
    match parsePayoffToken expr with
    | .ok vs => parsePayoffAux rest (acc ++ vs)
    | .error e => .error e

/-- `parsePayoff` from markets.go. -/
def parsePayoff (payoffExpr : String) : Except String (List ℤ) :=
  parsePayoffAux (goSplit payoffExpr "|") []

/-- `initIncludeMarket` from markets.go. -/
def initIncludeMarket (teamNames : List String) (market : Market) : Except String Market :=
  match market.includeTeams.find? (fun t => !(teamNames.contains t)) with
  | some t => .error (market.name ++ " market has unknown team " ++ t)
  | none =>
    if market.payoff = "" then
      .error ("market " ++ market.name ++ " has no payoff defined")
    else
      match parsePayoff market.payoff with
      | .error e => .error ("error parsing payoff for market " ++ market.name ++ ": " ++ e)
      | .ok pp =>
        if pp.length ≠ market.includeTeams.length then
          .error (market.name ++ " include market payoff length does not match include teams count")
        else .ok { market with teams := market.includeTeams, parsedPayoff := pp }

/-- `initExcludeMarket` from markets.go (the expected length is the Go
`int` difference `len(teamNames) - len(market.Exclude)`). -/
def initExcludeMarket (teamNames : List String) (market : Market) : Except String Market :=
  match market.excludeTeams.find? (fun t => !(teamNames.contains t)) with
  | some t => .error (market.name ++ " market has unknown team " ++ t)
  | none =>
    if market.payoff = "" then
      .error ("market " ++ market.name ++ " has no payoff defined")
    else
      match parsePayoff market.payoff with
      | .error e => .error ("error parsing payoff for market " ++ market.name ++ ": " ++ e)
      | .ok pp =>
        if (pp.length : ℤ) ≠ (teamNames.length : ℤ) - (market.excludeTeams.length : ℤ) then
          .error (market.name ++ " exclude market payoff length does not match remaining teams count")
        else
          .ok { market with
            teams := teamNames.filter (fun t => !(market.excludeTeams.contains t)),
            parsedPayoff := pp }

/-- `initStandardMarket` from markets.go. -/
def initStandardMarket (teamNames : List String) (market : Market) : Except String Market :=
  if market.payoff = "" then
    .error ("market " ++ market.name ++ " has no payoff defined")
  else
    match parsePayoff market.payoff with
    | .error e => .error ("error parsing payoff for market " ++ market.name ++ ": " ++ e)
    | .ok pp =>
      if pp.length ≠ teamNames.length then
        .error (market.name ++ " standard market payoff length does not match total teams count")
      else .ok { market with teams := teamNames, parsedPayoff := pp }

/-- The per-market body of the `InitMarkets` loop from markets.go:
both-include-and-exclude check, then dispatch. -/
def initMarketDispatch (teamNames : List String) (market : Market) : Except String Market :=
  if market.includeTeams ≠ [] ∧ market.excludeTeams ≠ [] then
    .error ("market " ++ market.name ++ " cannot have both include and exclude fields")
  else if market.includeTeams ≠ [] then initIncludeMarket teamNames market
  else if market.excludeTeams ≠ [] then initExcludeMarket teamNames market
  else initStandardMarket teamNames market

/-- `InitMarkets` from markets.go: first failing market aborts. -/
def InitMarkets (teamNames : List String) : List Market → Except String (List Market)
  | [] => .ok []
  | m :: rest =>
    match initMarketDispatch teamNames m with
    | .error e => .error e
    | .ok m' =>
      match InitMarkets teamNames rest with
      | .error e => .error e
      | .ok rest' => .ok (m' :: rest')

/-- Go's built-in `<` on strings: byte-lexicographic comparison, modelled
character-by-character. -/
def charListLt : List Char → List Char → Bool
  | [], [] => false
  | [], _ :: _ => true
  | _ :: _, [] => false
  | a :: as, b :: bs =>
      if a.toNat < b.toNat then true
      else if b.toNat < a.toNat then false
      else charListLt as bs

/-- `a < b` on Go strings. -/
def goStrLt (a b : String) : Bool := charListLt a.toList b.toList

/-- `a <= b` on Go strings (`!(b < a)`). -/
def goStrLe (a b : String) : Bool := !(goStrLt b a)

lemma char_toNat_inj {a b : Char} (h : a.toNat = b.toNat) : a = b := by
  have hv : a.val = b.val := by
    have h1 : a.val.toBitVec.toNat = b.val.toBitVec.toNat := h
    exact UInt32.eq_of_toBitVec_eq (BitVec.eq_of_toNat_eq h1)
  exact Char.eq_of_val_eq hv

lemma charListLt_trans : ∀ {x y z : List Char},
    charListLt x y = true → charListLt y z = true → charListLt x z = true
  | [], [], _, h1, _ => by simp [charListLt] at h1
  | [], _ :: _, [], _, h2 => by simp [charListLt] at h2
  | [], _ :: _, _ :: _, _, _ => rfl
  | _ :: _, [], _, h1, _ => by simp [charListLt] at h1
  | _ :: _, _ :: _, [], _, h2 => by simp [charListLt] at h2
  | a :: as, b :: bs, c :: cs, h1, h2 => by
      simp only [charListLt] at h1 h2 ⊢
      by_cases hab : a.toNat < b.toNat
      · by_cases hbc : b.toNat < c.toNat
        · simp [Nat.lt_trans hab hbc]
        · by_cases hcb : c.toNat < b.toNat
          · rw [if_neg hbc, if_pos hcb] at h2
            exact absurd h2 (by simp)
          · simp [show a.toNat < c.toNat by omega]
      · by_cases hba : b.toNat < a.toNat
        · rw [if_neg hab, if_pos hba] at h1
          exact absurd h1 (by simp)
        · rw [if_neg hab, if_neg hba] at h1
          by_cases hbc : b.toNat < c.toNat
          · simp [show a.toNat < c.toNat by omega]
          · by_cases hcb : c.toNat < b.toNat
            · rw [if_neg hbc, if_pos hcb] at h2
              exact absurd h2 (by simp)
            · rw [if_neg hbc, if_neg hcb] at h2
              rw [if_neg (show ¬ a.toNat < c.toNat by omega),
                if_neg (show ¬ c.toNat < a.toNat by omega)]
              exact charListLt_trans h1 h2

lemma charListLt_conn : ∀ {x y : List Char},
    charListLt x y = false → charListLt y x = false → x = y
  | [], [], _, _ => rfl
  | [], _ :: _, h1, _ => by simp [charListLt] at h1
  | _ :: _, [], _, h2 => by simp [charListLt] at h2
  | a :: as, b :: bs, h1, h2 => by
      simp only [charListLt] at h1 h2
      by_cases hab : a.toNat < b.toNat
      · rw [if_pos hab] at h1
        exact absurd h1 (by simp)
      · by_cases hba : b.toNat < a.toNat
        · rw [if_pos hba] at h2
          exact absurd h2 (by simp)
        · rw [if_neg hab, if_neg hba] at h1
          rw [if_neg hba, if_neg hab] at h2
          rw [char_toNat_inj (show a.toNat = b.toNat by omega), charListLt_conn h1 h2]

lemma goStr_lt_or_le (a b : String) : goStrLt a b = true ∨ (goStrLe a b = true ∧ a = b) ∨
    (goStrLt b a = true) := by
  unfold goStrLe goStrLt
  cases h1 : charListLt a.toList b.toList
  · cases h2 : charListLt b.toList a.toList
    · refine Or.inr (Or.inl ⟨by simp, ?_⟩)
      have := charListLt_conn h1 h2
      cases a
      cases b
      exact congrArg String.mk this
    · exact Or.inr (Or.inr rfl)
  · exact Or.inl rfl

/-- The (date, name) lexicographic order that `Simulate` sorts the events
slice with (api.go lines 105-111): `a` may precede `b`, i.e. the negation
of the Go `less(b, a)`. -/
def eventsOrder (a b : Event) : Prop :=
  goStrLt a.date b.date = true ∨ (a.date = b.date ∧ goStrLe a.name b.name = true)

instance : DecidableRel eventsOrder := fun a b => by
  unfold eventsOrder
  infer_instance

lemma charListLt_irrefl : ∀ l : List Char, charListLt l l = false
  | [] => rfl
  | a :: as => by simp [charListLt, charListLt_irrefl as]

lemma goStrLt_asymm {a b : String} (h : goStrLt a b = true) : goStrLt b a = false := by
  cases h2 : goStrLt b a
  · rfl
  · unfold goStrLt at h h2
    have := charListLt_trans h h2
    rw [charListLt_irrefl] at this
    exact absurd this (by simp)

instance : IsTotal Event eventsOrder := by
  constructor
  intro a b
  unfold eventsOrder
  rcases goStr_lt_or_le a.date b.date with h | ⟨_, h⟩ | h
  · exact Or.inl (Or.inl h)
  · rcases goStr_lt_or_le a.name b.name with hn | ⟨hn, _⟩ | hn
    · exact Or.inl (Or.inr ⟨h, by unfold goStrLe; simp [goStrLt_asymm hn]⟩)
    · exact Or.inl (Or.inr ⟨h, hn⟩)
    · exact Or.inr (Or.inr ⟨h.symm, by unfold goStrLe; simp [goStrLt_asymm hn]⟩)
  · exact Or.inr (Or.inl h)

instance : IsTrans Event eventsOrder := by
  constructor
  intro a b c hab hbc
  unfold eventsOrder at *
  rcases hab with h1 | ⟨h1, h1n⟩
  · rcases hbc with h2 | ⟨h2, _⟩
    · exact Or.inl (by unfold goStrLt at *; exact charListLt_trans h1 h2)
    · exact Or.inl (h2 ▸ h1)
  · rcases hbc with h2 | ⟨h2, h2n⟩
    · exact Or.inl (h1 ▸ h2)
    · refine Or.inr ⟨h1.trans h2, ?_⟩
      unfold goStrLe at h1n h2n ⊢
      simp only [Bool.not_eq_true'] at h1n h2n ⊢
      cases hca : goStrLt c.name a.name
      · rfl
      · exfalso
        rcases goStr_lt_or_le a.name b.name with hn | ⟨_, hn⟩ | hn
        · have hcb : goStrLt c.name b.name = true := by
            unfold goStrLt at hca hn ⊢
            exact charListLt_trans hca hn
          rw [hcb] at h2n
          exact absurd h2n (by simp)
        · rw [hn] at hca
          rw [hca] at h2n
          exact absurd h2n (by simp)
        · rw [hn] at h1n
          exact absurd h1n (by simp)

/-- The in-place `sort.Slice` on events (api.go): modelled by a comparison
sort over the same order. -/
def sortEventsByDateName (events : List Event) : List Event :=
  List.insertionSort eventsOrder events

/-- The team-name extraction of `Simulate` (api.go lines 72-84): parsed
home/away names of each event, skipping events whose name does not parse
into two non-empty parts; deduplicated (Go collects them as map keys). -/
def simulateTeamNames (events : List Event) : List String :=
  (events.flatMap (fun e =>
    if (parseEventName e.name).1 ≠ "" ∧ (parseEventName e.name).2 ≠ "" then
      [(parseEventName e.name).1, (parseEventName e.name).2]
    else [])).dedup

/-- `Simulate` from api.go up to the hand-off into the ratings fit and the
Monte Carlo run, which are abstracted into the continuation `run` (applied
to the sorted events and the initialized markets).  Every validation that
precedes any fitting or simulation work is explicit:
empty-events check, valid-team-names check, handicaps check (all in
`Simulate`), then `InitMarkets` (the first thing `ProcessSimulation` does,
with the sorted team names). -/
def Simulate {α : Type} (run : List Event → List Market → α)
    (events : List Event) (markets : List Market)
    (handicaps : List (String × ℤ)) : Except String α :=
  if events.length = 0 then .error "events cannot be empty"
  else
    if (simulateTeamNames events).length = 0 then .error "no valid team names found in events"
    else
      match handicaps.find? (fun p => !((simulateTeamNames events).contains p.1)) with
      | some p => .error ("handicaps contains unknown team: " ++ p.1)
      | none =>
        match InitMarkets
            (List.insertionSort (fun a b => goStrLe a b = true) (simulateTeamNames events))
            markets with
        | .error e => .error e
        | .ok markets' => .ok (run (sortEventsByDateName events) markets')

/-- The caller-visible state of the `events` slice after `Simulate`
returns: it is sorted in place after the handicaps validation and before
anything else, so it is left untouched exactly on the three early error
paths. -/
def callerEventsAfterSimulate (events : List Event)
    (handicaps : List (String × ℤ)) : List Event :=
  if events.length = 0 then events
  else if (simulateTeamNames events).length = 0 then events
  else
    match handicaps.find? (fun p => !((simulateTeamNames events).contains p.1)) with
    | some _ => events
    | none => sortEventsByDateName events

/-! ## C10: the frame effect on the caller's events slice -/

/-- C10: on every run that passes the validations preceding the sort,
`Simulate` leaves the caller's events slice sorted by (date, name) — a
permutation of the original in sorted order — and a caller's slice can
therefore differ from its original order after the call (shown at a
concrete two-event input whose dates arrive in reverse order). -/
theorem C10_simulate_sorts_events (events : List Event) (handicaps : List (String × ℤ))
    (h1 : events.length ≠ 0)
    (h2 : (simulateTeamNames events).length ≠ 0)
    (h3 : handicaps.find? (fun p => !((simulateTeamNames events).contains p.1)) = none) :
    callerEventsAfterSimulate events handicaps = sortEventsByDateName events
    ∧ List.Sorted eventsOrder (callerEventsAfterSimulate events handicaps)
    ∧ (callerEventsAfterSimulate events handicaps).Perm events
    ∧ (callerEventsAfterSimulate
        [⟨"A vs B", "2024-01-02", [], []⟩, ⟨"A vs B", "2024-01-01", [], []⟩] []).map Event.date
        ≠ ["2024-01-02", "2024-01-01"] := by
  have heq : callerEventsAfterSimulate events handicaps = sortEventsByDateName events := by
    unfold callerEventsAfterSimulate
    rw [if_neg h1, if_neg h2, h3]
  refine ⟨heq, ?_, ?_, ?_⟩
  · rw [heq]
    exact List.sorted_insertionSort eventsOrder events
  · rw [heq]
    exact List.perm_insertionSort eventsOrder events
  · decide

/-- Witness for C10 at a concrete passing input. -/
theorem C10_simulate_sorts_events_witness :
    (([⟨"A vs B", "2024-01-02", [], []⟩, ⟨"A vs B", "2024-01-01", [], []⟩] : List Event).length ≠ 0)
    ∧ (callerEventsAfterSimulate
        [⟨"A vs B", "2024-01-02", [], []⟩, ⟨"A vs B", "2024-01-01", [], []⟩] []
        = sortEventsByDateName
            [⟨"A vs B", "2024-01-02", [], []⟩, ⟨"A vs B", "2024-01-01", [], []⟩]) := by
  have h := C10_simulate_sorts_events
    [⟨"A vs B", "2024-01-02", [], []⟩, ⟨"A vs B", "2024-01-01", [], []⟩] []
    (by decide) (by decide) (by decide)
  exact ⟨by decide, h.1⟩

/-! ## C9: unparseable event names -/

/-- C9 counterexample: an input containing the unparseable event name
`"bad-name"` (next to one parseable event) does NOT fail — the request
succeeds, the bad event merely contributes no team names. -/
theorem C9_counterexample :
    (parseEventName "bad-name" = ("", ""))
    ∧ (Simulate (fun _ _ => ())
        [⟨"A vs B", "2024-01-01", [], []⟩, ⟨"bad-name", "2024-01-02", [], []⟩] [] []).toOption
        = some () := by
  constructor
  · decide
  · decide

/-- C9 (amended): an unparseable event name is not fatal by itself; the
request fails with an error exactly when no event name parses into two
non-empty team names (so no valid team name can be extracted at all),
which is the only way unparseable names abort the run. -/
theorem C9_unparseable_names (events : List Event) (markets : List Market)
    (handicaps : List (String × ℤ))
    (hne : events.length ≠ 0)
    (hbad : ∀ e ∈ events,
      ¬((parseEventName e.name).1 ≠ "" ∧ (parseEventName e.name).2 ≠ "")) :
    ∀ (α : Type) (run : List Event → List Market → α),
      Simulate run events markets handicaps = .error "no valid team names found in events" := by
  intro α run
  have hnames : simulateTeamNames events = [] := by
    unfold simulateTeamNames
    have hflat : (events.flatMap (fun e =>
        if (parseEventName e.name).1 ≠ "" ∧ (parseEventName e.name).2 ≠ "" then
          [(parseEventName e.name).1, (parseEventName e.name).2]
        else [])) = [] := by
      rw [List.flatMap_eq_nil_iff]
      intro e he
      rw [if_neg (hbad e he)]
    rw [hflat]
    rfl
  unfold Simulate
  rw [if_neg hne, hnames]
  rfl

/-- Witness for C9 (amended): a single all-unparseable input. -/
theorem C9_unparseable_names_witness :
    (([⟨"bad-name", "2024-01-01", [], []⟩] : List Event).length ≠ 0)
    ∧ Simulate (fun _ _ => ()) [⟨"bad-name", "2024-01-01", [], []⟩] [] []
        = .error "no valid team names found in events" := by
  refine ⟨by decide, ?_⟩
  exact C9_unparseable_names [⟨"bad-name", "2024-01-01", [], []⟩] [] []
    (by decide) (by decide) Unit (fun _ _ => ())

/-! ## C8: fatal configuration errors before any work -/

/-- The participating-team count a market's parsed payoff is validated
against (markets.go): the include count, the team count minus the exclude
count, or the full team count. -/
def marketTeamCount (teamNames : List String) (m : Market) : ℤ :=
  if m.includeTeams ≠ [] then (m.includeTeams.length : ℤ)
  else if m.excludeTeams ≠ [] then (teamNames.length : ℤ) - (m.excludeTeams.length : ℤ)
  else (teamNames.length : ℤ)

/-- A market configuration that `InitMarkets` must reject: both subsets
present, missing payoff, or a parseable payoff of the wrong length. -/
def badMarket (teamNames : List String) (m : Market) : Prop :=
  (m.includeTeams ≠ [] ∧ m.excludeTeams ≠ [])
  ∨ m.payoff = ""
  ∨ (∃ pp, parsePayoff m.payoff = .ok pp ∧ (pp.length : ℤ) ≠ marketTeamCount teamNames m)

lemma initMarketDispatch_ok {tn : List String} {m m' : Market}
    (h : initMarketDispatch tn m = .ok m') :
    ¬(m.includeTeams ≠ [] ∧ m.excludeTeams ≠ []) ∧ m.payoff ≠ "" ∧
    ∃ pp, parsePayoff m.payoff = .ok pp ∧ (pp.length : ℤ) = marketTeamCount tn m := by
  unfold initMarketDispatch at h
  split at h
  · exact absurd h (by simp)
  rename_i hboth
  refine ⟨hboth, ?_⟩
  split at h
  · rename_i hinc
    unfold initIncludeMarket at h
    split at h
    · exact absurd h (by simp)
    split at h
    · exact absurd h (by simp)
    rename_i hpay
    split at h
    · exact absurd h (by simp)
    rename_i pp hparse
    split at h
    · exact absurd h (by simp)
    rename_i hlen
    push_neg at hlen
    refine ⟨hpay, pp, hparse, ?_⟩
    unfold marketTeamCount
    rw [if_pos hinc]
    exact_mod_cast hlen
  split at h
  · rename_i hinc hexc
    unfold initExcludeMarket at h
    split at h
    · exact absurd h (by simp)
    split at h
    · exact absurd h (by simp)
    rename_i hpay
    split at h
    · exact absurd h (by simp)
    rename_i pp hparse
    split at h
    · exact absurd h (by simp)
    rename_i hlen
    push_neg at hlen
    refine ⟨hpay, pp, hparse, ?_⟩
    unfold marketTeamCount
    rw [if_neg hinc, if_pos hexc]
    exact hlen
  rename_i hinc hexc
  unfold initStandardMarket at h
  split at h
  · exact absurd h (by simp)
  rename_i hpay
  split at h
  · exact absurd h (by simp)
  rename_i pp hparse
  split at h
  · exact absurd h (by simp)
  rename_i hlen
  push_neg at hlen
  refine ⟨hpay, pp, hparse, ?_⟩
  unfold marketTeamCount
  rw [if_neg hinc, if_neg hexc]
  exact_mod_cast hlen

lemma InitMarkets_error {tn : List String} {markets : List Market}
    (h : ∃ m ∈ markets, badMarket tn m) :
    ∃ e, InitMarkets tn markets = .error e := by
  induction markets with
  | nil =>
      rcases h with ⟨m, hm, _⟩
      exact absurd hm (by simp)
  | cons m rest ih =>
      rcases h with ⟨m0, hm0, hbad⟩
      rcases List.mem_cons.mp hm0 with heq | hmem
      · subst heq
        rcases hd : initMarketDispatch tn m0 with e | m'
        · exact ⟨e, by simp [InitMarkets, hd]⟩
        · exfalso
          obtain ⟨hnboth, hpay, pp', hparse', hlen'⟩ := initMarketDispatch_ok hd
          rcases hbad with hb | hb | ⟨pp, hparse, hlen⟩
          · exact hnboth hb
          · exact hpay hb
          · rw [hparse] at hparse'
            obtain rfl : pp = pp' := (Except.ok.inj hparse')
            exact hlen hlen'
      · obtain ⟨e, he⟩ := ih ⟨m0, hmem, hbad⟩
        rcases hd : initMarketDispatch tn m with e' | m'
        · exact ⟨e', by simp [InitMarkets, hd]⟩
        · exact ⟨e, by simp [InitMarkets, hd, he]⟩

/-- C8: `Simulate` returns a single descriptive error — and the fit /
Monte-Carlo continuation is never invoked — whenever the events list is
empty, a handicap names a team not occurring in any event, a market
carries both include and exclude sets, a market has no payoff, or a
market's parsed payoff length differs from its participating-team count. -/
theorem C8_simulate_validation (events : List Event) (markets : List Market)
    (handicaps : List (String × ℤ))
    (hcond :
      events = []
      ∨ (∃ p ∈ handicaps, p.1 ∉ simulateTeamNames events)
      ∨ (∃ m ∈ markets, m.includeTeams ≠ [] ∧ m.excludeTeams ≠ [])
      ∨ (∃ m ∈ markets, m.payoff = "")
      ∨ (∃ m ∈ markets, ∃ pp, parsePayoff m.payoff = .ok pp ∧
          (pp.length : ℤ) ≠ marketTeamCount (simulateTeamNames events) m)) :
    ∃ msg, ∀ (α : Type) (run : List Event → List Market → α),
      Simulate run events markets handicaps = .error msg := by
  by_cases h0 : events.length = 0
  · exact ⟨"events cannot be empty", fun α run => by unfold Simulate; rw [if_pos h0]⟩
  by_cases h1 : (simulateTeamNames events).length = 0
  · refine ⟨"no valid team names found in events", fun α run => ?_⟩
    unfold Simulate
    rw [if_neg h0, if_pos h1]
  rcases hfind : handicaps.find? (fun p => !((simulateTeamNames events).contains p.1))
      with _ | p
  · -- no unknown handicap: one of the market conditions must hold
    have hmarket : ∃ m ∈ markets,
        badMarket (List.insertionSort (fun a b => goStrLe a b = true)
          (simulateTeamNames events)) m := by
      have hlen : (List.insertionSort (fun a b => goStrLe a b = true)
          (simulateTeamNames events)).length = (simulateTeamNames events).length :=
        (List.perm_insertionSort _ _).length_eq
      rcases hcond with h | h | h | h | h
      · exact absurd (by rw [h]; rfl) h0
      · exfalso
        rcases h with ⟨p, hp, hnotin⟩
        have hnone := List.find?_eq_none.mp hfind p hp
        simp only [Bool.not_eq_true', Bool.not_eq_false] at hnone
        exact hnotin (by
          have hcont : (simulateTeamNames events).contains p.1 = true := by
            simpa using hnone
          exact List.elem_iff.mp hcont)
      · rcases h with ⟨m, hm, hb⟩
        exact ⟨m, hm, Or.inl hb⟩
      · rcases h with ⟨m, hm, hb⟩
        exact ⟨m, hm, Or.inr (Or.inl hb)⟩
      · rcases h with ⟨m, hm, pp, hparse, hne⟩
        refine ⟨m, hm, Or.inr (Or.inr ⟨pp, hparse, ?_⟩)⟩
        unfold marketTeamCount at hne ⊢
        rw [hlen]
        exact hne
    obtain ⟨e, he⟩ := InitMarkets_error hmarket
    refine ⟨e, fun α run => ?_⟩
    unfold Simulate
    rw [if_neg h0, if_neg h1, hfind, he]
  · refine ⟨"handicaps contains unknown team: " ++ p.1, fun α run => ?_⟩
    unfold Simulate
    rw [if_neg h0, if_neg h1, hfind]

/-- Witness for C8: the empty events list. -/
theorem C8_simulate_validation_witness :
    (([] : List Event) = [] ∨ (∃ p ∈ ([] : List (String × ℤ)), p.1 ∉ simulateTeamNames [])
      ∨ (∃ m ∈ ([] : List Market), m.includeTeams ≠ [] ∧ m.excludeTeams ≠ [])
      ∨ (∃ m ∈ ([] : List Market), m.payoff = "")
      ∨ (∃ m ∈ ([] : List Market), ∃ pp, parsePayoff m.payoff = .ok pp ∧
          (pp.length : ℤ) ≠ marketTeamCount (simulateTeamNames []) m))
    ∧ (∃ msg, ∀ (α : Type) (run : List Event → List Market → α),
        Simulate run [] [] [] = .error msg) :=
  ⟨Or.inl rfl, C8_simulate_validation [] [] [] (Or.inl rfl)⟩

/-! ## C6: per-path position assignment (src/pkg/outrights/simulator.go) -/

/-- The per-path team record of `positionProbabilities` (simulator.go):
`{TeamIndex, Points, GD}`. -/
structure TeamData where
  teamIndex : ℕ
  points : ℝ
  gd : ℝ

/-- The sort order of `positionProbabilities` (simulator.go lines 169-174):
`a` may precede `b` iff the Go `less(b, a)` comparator (points descending,
then goal difference descending) does not hold. -/
def teamOrder (a b : TeamData) : Prop :=
  b.points < a.points ∨ (a.points = b.points ∧ b.gd ≤ a.gd)

instance : DecidableRel teamOrder := fun a b => by
  unfold teamOrder
  infer_instance

instance : IsTotal TeamData teamOrder := by
  constructor
  intro a b
  unfold teamOrder
  rcases lt_trichotomy a.points b.points with h | h | h
  · exact Or.inr (Or.inl h)
  · rcases le_total a.gd b.gd with hg | hg
    · exact Or.inr (Or.inr ⟨h.symm, hg⟩)
    · exact Or.inl (Or.inr ⟨h, hg⟩)
  · exact Or.inl (Or.inl h)

instance : IsTrans TeamData teamOrder := by
  constructor
  intro a b c hab hbc
  unfold teamOrder at *
  rcases hab with h1 | ⟨h1, h1g⟩
  · rcases hbc with h2 | ⟨h2, _⟩
    · exact Or.inl (h2.trans h1)
    · exact Or.inl (by rw [← h2]; exact h1)
  · rcases hbc with h2 | ⟨h2, h2g⟩
    · exact Or.inl (by rw [h1]; exact h2)
    · exact Or.inr ⟨h1.trans h2, h2g.trans h1g⟩

/-- One path's team data, as built in the loop of `positionProbabilities`:
entry `i` carries team index `i` and that team's simulated points and goal
difference on the path. -/
def pathTeamData (pts gds : List ℝ) : List TeamData :=
  (List.range pts.length).map (fun i => ⟨i, pts.getD i 0, gds.getD i 0⟩)

/-- The per-path position assignment of `positionProbabilities`: sort the
team data (points desc, GD desc), then `positions[team.TeamIndex] = pos`
for each sorted slot `pos`. -/
def pathPositions (pts gds : List ℝ) : List ℕ :=
  let sorted := List.insertionSort teamOrder (pathTeamData pts gds)
  (List.range pts.length).map (fun i => sorted.findIdx (fun td => td.teamIndex == i))

lemma pathTeamData_mem_eq {pts gds : List ℝ} {x : TeamData}
    (hx : x ∈ pathTeamData pts gds) :
    x = ⟨x.teamIndex, pts.getD x.teamIndex 0, gds.getD x.teamIndex 0⟩ := by
  unfold pathTeamData at hx
  obtain ⟨i, _, rfl⟩ := List.mem_map.mp hx
  rfl

lemma pathTeamData_entry_mem {pts gds : List ℝ} {a : ℕ} (ha : a < pts.length) :
    (⟨a, pts.getD a 0, gds.getD a 0⟩ : TeamData) ∈ pathTeamData pts gds := by
  unfold pathTeamData
  exact List.mem_map.mpr ⟨a, List.mem_range.mpr ha, rfl⟩

lemma getD_map_range {α : Type} (f : ℕ → α) (n a : ℕ) (ha : a < n) (d : α) :
    ((List.range n).map f).getD a d = f a := by
  have hlen : a < ((List.range n).map f).length := by simpa using ha
  rw [List.getD_eq_getElem _ _ hlen]
  simp

/-- C6: in the per-path position assignment, two teams with identical
simulated points but different goal difference never share a position
index, and the team with the higher goal difference receives the (strictly)
lower position index. -/
theorem C6_position_tiebreak (pts gds : List ℝ) (a b : ℕ)
    (ha : a < pts.length) (hb : b < pts.length) (hab : a ≠ b)
    (hp : pts.getD a 0 = pts.getD b 0) (hg : gds.getD b 0 < gds.getD a 0) :
    (pathPositions pts gds).getD a 0 < (pathPositions pts gds).getD b 0
    ∧ (pathPositions pts gds).getD a 0 ≠ (pathPositions pts gds).getD b 0 := by
  have hperm := List.perm_insertionSort teamOrder (pathTeamData pts gds)
  have hsortd := List.sorted_insertionSort teamOrder (pathTeamData pts gds)
  set sorted := List.insertionSort teamOrder (pathTeamData pts gds) with hsorted
  have hmemA : (⟨a, pts.getD a 0, gds.getD a 0⟩ : TeamData) ∈ sorted :=
    hperm.mem_iff.mpr (pathTeamData_entry_mem ha)
  have hmemB : (⟨b, pts.getD b 0, gds.getD b 0⟩ : TeamData) ∈ sorted :=
    hperm.mem_iff.mpr (pathTeamData_entry_mem hb)
  have hexA : ∃ x ∈ sorted, (fun td => td.teamIndex == a) x = true :=
    ⟨_, hmemA, by simp⟩
  have hexB : ∃ x ∈ sorted, (fun td => td.teamIndex == b) x = true :=
    ⟨_, hmemB, by simp⟩
  have hiaLt : sorted.findIdx (fun td => td.teamIndex == a) < sorted.length :=
    List.findIdx_lt_length_of_exists hexA
  have hibLt : sorted.findIdx (fun td => td.teamIndex == b) < sorted.length :=
    List.findIdx_lt_length_of_exists hexB
  have hgetAidx : (sorted[sorted.findIdx (fun td => td.teamIndex == a)]).teamIndex = a := by
    have := List.findIdx_getElem (w := hiaLt)
    simpa using this
  have hgetBidx : (sorted[sorted.findIdx (fun td => td.teamIndex == b)]).teamIndex = b := by
    have := List.findIdx_getElem (w := hibLt)
    simpa using this
  have hgetA : sorted[sorted.findIdx (fun td => td.teamIndex == a)]
      = (⟨a, pts.getD a 0, gds.getD a 0⟩ : TeamData) := by
    have hmem : sorted[sorted.findIdx (fun td => td.teamIndex == a)]
        ∈ pathTeamData pts gds :=
      hperm.mem_iff.mp (List.getElem_mem _)
    rw [pathTeamData_mem_eq hmem, hgetAidx]
  have hgetB : sorted[sorted.findIdx (fun td => td.teamIndex == b)]
      = (⟨b, pts.getD b 0, gds.getD b 0⟩ : TeamData) := by
    have hmem : sorted[sorted.findIdx (fun td => td.teamIndex == b)]
        ∈ pathTeamData pts gds :=
      hperm.mem_iff.mp (List.getElem_mem _)
    rw [pathTeamData_mem_eq hmem, hgetBidx]
  have hneIdx : sorted.findIdx (fun td => td.teamIndex == a)
      ≠ sorted.findIdx (fun td => td.teamIndex == b) := by
    intro h
    apply hab
    have : sorted[sorted.findIdx (fun td => td.teamIndex == a)]
        = sorted[sorted.findIdx (fun td => td.teamIndex == b)] := by
      congr 1
    rw [hgetA, hgetB] at this
    exact congrArg TeamData.teamIndex this
  have hlt : sorted.findIdx (fun td => td.teamIndex == a)
      < sorted.findIdx (fun td => td.teamIndex == b) := by
    rcases Nat.lt_trichotomy (sorted.findIdx (fun td => td.teamIndex == a))
      (sorted.findIdx (fun td => td.teamIndex == b)) with h | h | h
    · exact h
    · exact absurd h hneIdx
    · exfalso
      have hrel := hsortd.rel_get_of_lt
        (a := ⟨sorted.findIdx (fun td => td.teamIndex == b), hibLt⟩)
        (b := ⟨sorted.findIdx (fun td => td.teamIndex == a), hiaLt⟩) h
      rw [show sorted.get ⟨sorted.findIdx (fun td => td.teamIndex == b), hibLt⟩
          = sorted[sorted.findIdx (fun td => td.teamIndex == b)] from rfl,
        show sorted.get ⟨sorted.findIdx (fun td => td.teamIndex == a), hiaLt⟩
          = sorted[sorted.findIdx (fun td => td.teamIndex == a)] from rfl,
        hgetA, hgetB] at hrel
      unfold teamOrder at hrel
      rcases hrel with hcase | ⟨_, hcase⟩
      · simp only at hcase
        linarith [hp.le]
      · simp only at hcase
        linarith
  have hposA : (pathPositions pts gds).getD a 0
      = sorted.findIdx (fun td => td.teamIndex == a) := by
    unfold pathPositions
    rw [← hsorted]
    exact getD_map_range _ _ _ ha _
  have hposB : (pathPositions pts gds).getD b 0
      = sorted.findIdx (fun td => td.teamIndex == b) := by
    unfold pathPositions
    rw [← hsorted]
    exact getD_map_range _ _ _ hb _
  rw [hposA, hposB]
  exact ⟨hlt, hneIdx⟩

/-- Witness for C6: two teams level on points, the second with the better
goal difference, so the second takes position 0. -/
theorem C6_position_tiebreak_witness :
    (1 : ℕ) < ([1, 1] : List ℝ).length ∧ (0 : ℕ) < ([1, 1] : List ℝ).length ∧
    ((pathPositions [1, 1] [0, 5]).getD 1 0 < (pathPositions [1, 1] [0, 5]).getD 0 0
      ∧ (pathPositions [1, 1] [0, 5]).getD 1 0 ≠ (pathPositions [1, 1] [0, 5]).getD 0 0) := by
  refine ⟨by norm_num, by norm_num, ?_⟩
  exact C6_position_tiebreak [1, 1] [0, 5] 1 0 (by norm_num) (by norm_num)
    (by norm_num) (by norm_num) (by norm_num)

/-! ## Evolutionary fitter (src/unnamed/part_013) -/

/-- Bounds constants from src/unnamed/part_013. -/
def RatingMin : ℝ := 0.0

def RatingMax : ℝ := 6.0

def HomeAdvantageMin : ℝ := 0.0

def HomeAdvantageMax : ℝ := 1.5

/-- `GeneticAlgorithm` from src/unnamed/part_013 (the `initStd`,
`logInterval` and `debug` fields only affect the unbounded-dimension
branch and logging, neither of which occurs at the two call sites, where
every gene has a two-element bound). -/
structure GeneticAlgorithm where
  maxIterations : ℕ
  populationSize : ℕ
  mutationFactor : ℝ
  eliteRatio : ℝ
  initStd : ℝ
  logInterval : ℕ
  decayExponent : ℝ
  mutationProbability : ℝ
  debug : Bool

/-- `nElite := int(math.Max(1, float64(populationSize)*eliteRatio))`
(truncation towards zero of a value ≥ 1 is its floor). -/
def nElite (ga : GeneticAlgorithm) : ℕ :=
  (⌊max 1 ((ga.populationSize : ℝ) * ga.eliteRatio)⌋).toNat

/-- The random draws `optimize` consumes, indexed by where they occur:
`initU i j` is the `rand.Float64()` for gene `j` of initial individual `i`;
`pick g i` the `rand.Intn(nElite)` choosing slot `i`'s parent in
generation `g` (reduced `mod nElite`, since `rand.Intn(n)` always lies in
`[0, n)`); `mutCoin`/`mutNoise g i j` the `rand.Float64()` /
`rand.NormFloat64()` pair for gene `j` of slot `i` in generation `g`. -/
structure GARandom where
  initU : ℕ → ℕ → ℝ
  pick : ℕ → ℕ → ℕ
  mutCoin : ℕ → ℕ → ℕ → ℝ
  mutNoise : ℕ → ℕ → ℕ → ℝ

/-- The initial population: individual 0 is the provided `x0`, individuals
`1..P-1` sample each gene uniformly inside its bounds
(`bounds[j][0] + rand.Float64()*(bounds[j][1]-bounds[j][0])`). -/
def initialPopulation (ga : GeneticAlgorithm) (rng : GARandom) (x0 : List ℝ)
    (bounds : List (ℝ × ℝ)) : List (List ℝ) :=
  x0 :: (List.range (ga.populationSize - 1)).map (fun k =>
    (List.range x0.length).map (fun j =>
      (bounds.getD j (0, 0)).1 +
        rng.initU (k + 1) j * ((bounds.getD j (0, 0)).2 - (bounds.getD j (0, 0)).1)))

/-- `currentMutationFactor = mutationFactor * ((G-g)/G)^decayExponent`. -/
def currentMutationFactor (ga : GeneticAlgorithm) (g : ℕ) : ℝ :=
  ga.mutationFactor *
    (((ga.maxIterations - g : ℕ) : ℝ) / (ga.maxIterations : ℝ)) ^ ga.decayExponent

/-- Per-gene mutation: with probability `mutationProbability` add the
Gaussian noise scaled by the decayed factor and clamp into the gene's
bounds, otherwise leave the gene untouched. -/
def mutateGene (lo hi gene coin noise mProb mFac : ℝ) : ℝ :=
  if coin < mProb then max lo (min hi (gene + noise * mFac)) else gene

/-- One offspring: clone a uniformly chosen elite parent and mutate each
gene. -/
def offspring (ga : GeneticAlgorithm) (rng : GARandom) (bounds : List (ℝ × ℝ))
    (g : ℕ) (sorted : List (List ℝ)) (i : ℕ) : List ℝ :=
  let parent := sorted.getD (rng.pick g i % nElite ga) []
  (List.range parent.length).map (fun j =>
    mutateGene (bounds.getD j (0, 0)).1 (bounds.getD j (0, 0)).2 (parent.getD j 0)
      (rng.mutCoin g i j) (rng.mutNoise g i j)
      ga.mutationProbability (currentMutationFactor ga g))

/-- The `optimize` loop state: current population and the best-known
(genome, fitness) pair (`none` models the initial `bestFitness = +Inf`). -/
structure GAState where
  population : List (List ℝ)
  best : Option (List ℝ × ℝ)

/-- Step 3 of the generation loop: update best-known if the generation's
top individual improves on it. -/
def updateBest (f : List ℝ → ℝ) (best : Option (List ℝ × ℝ))
    (sorted : List (List ℝ)) : Option (List ℝ × ℝ) :=
  match sorted with
  | [] => best
  | top :: _ =>
    match best with
    | none => some (top, f top)
    | some (bg, bf) => if f top < bf then some (top, f top) else some (bg, bf)

/-- One generation of `optimize`: evaluate and sort by fitness, update the
best-known pair, copy the top `nElite` unchanged and fill the remaining
slots with mutated clones of random elite parents. -/
def gaStep (ga : GeneticAlgorithm) (rng : GARandom) (bounds : List (ℝ × ℝ))
    (f : List ℝ → ℝ) (g : ℕ) (st : GAState) : GAState :=
  let sorted := List.insertionSort (fun x y => f x ≤ f y) st.population
  { population :=
      sorted.take (nElite ga) ++
        (List.range (ga.populationSize - nElite ga)).map
          (fun k => offspring ga rng bounds g sorted (nElite ga + k))
    best := updateBest f st.best sorted }

/-- The state after `g` generations of `optimize`. -/
def gaRun (ga : GeneticAlgorithm) (rng : GARandom) (bounds : List (ℝ × ℝ))
    (f : List ℝ → ℝ) (x0 : List ℝ) : ℕ → GAState
  | 0 => ⟨initialPopulation ga rng x0 bounds, none⟩
  | g + 1 => gaStep ga rng bounds f g (gaRun ga rng bounds f x0 g)

/-- `optimize` from src/unnamed/part_013: run `maxIterations` generations
and return the best-known pair (Go returns `(nil, +Inf)` when no
generation ran; that dead branch is modelled as `([], 0)`). -/
def optimize (ga : GeneticAlgorithm) (rng : GARandom) (f : List ℝ → ℝ)
    (x0 : List ℝ) (bounds : List (ℝ × ℝ)) : List ℝ × ℝ :=
  match (gaRun ga rng bounds f x0 ga.maxIterations).best with
  | some (bg, bf) => (bg, bf)
  | none => ([], 0)

/-- The best-known fitness after `g` generations, `⊤` before any
generation ran (Go's initial `math.Inf(1)`). -/
def bestFitnessAfter (ga : GeneticAlgorithm) (rng : GARandom) (bounds : List (ℝ × ℝ))
    (f : List ℝ → ℝ) (x0 : List ℝ) (g : ℕ) : WithTop ℝ :=
  match (gaRun ga rng bounds f x0 g).best with
  | none => ⊤
  | some (_, bf) => (bf : WithTop ℝ)

/-! ## C3: best-known fitness across the generation loop -/

lemma one_le_nElite (ga : GeneticAlgorithm) : 1 ≤ nElite ga := by
  unfold nElite
  have h1 : ((1 : ℤ) : ℝ) ≤ max 1 ((ga.populationSize : ℝ) * ga.eliteRatio) := by
    simpa using le_max_left (1 : ℝ) _
  have h2 : (1 : ℤ) ≤ ⌊max 1 ((ga.populationSize : ℝ) * ga.eliteRatio)⌋ :=
    Int.le_floor.mpr h1
  omega

lemma population_ne_nil (ga : GeneticAlgorithm) (rng : GARandom) (bounds : List (ℝ × ℝ))
    (f : List ℝ → ℝ) (x0 : List ℝ) :
    ∀ g, (gaRun ga rng bounds f x0 g).population ≠ [] := by
  intro g
  induction g with
  | zero => simp [gaRun, initialPopulation]
  | succ n ih =>
      show (gaStep ga rng bounds f n (gaRun ga rng bounds f x0 n)).population ≠ []
      unfold gaStep
      intro hnil
      rcases List.append_eq_nil.mp hnil with ⟨htake, _⟩
      rcases List.take_eq_nil_iff.mp htake with h | h
      · exact absurd h (by have := one_le_nElite ga; omega)
      · have hp := List.perm_insertionSort (fun x y : List ℝ => f x ≤ f y)
          (gaRun ga rng bounds f x0 n).population
        rw [h] at hp
        exact ih hp.symm.eq_nil

lemma head_sort_le {f : List ℝ → ℝ} {pop : List (List ℝ)} {top : List ℝ}
    {rest : List (List ℝ)}
    (h : List.insertionSort (fun x y => f x ≤ f y) pop = top :: rest) :
    ∀ ind ∈ pop, f top ≤ f ind := by
  haveI : IsTotal (List ℝ) (fun x y => f x ≤ f y) := ⟨fun a b => le_total (f a) (f b)⟩
  haveI : IsTrans (List ℝ) (fun x y => f x ≤ f y) := ⟨fun _ _ _ => le_trans⟩
  intro ind hind
  have hmem : ind ∈ top :: rest := by
    rw [← h]
    exact (List.perm_insertionSort _ pop).mem_iff.mpr hind
  have hs : List.Sorted (fun x y => f x ≤ f y) (top :: rest) :=
    h ▸ List.sorted_insertionSort _ pop
  rcases List.mem_cons.mp hmem with rfl | hmem'
  · exact le_refl _
  · exact List.rel_of_sorted_cons hs ind hmem'

lemma head_sort_mem {f : List ℝ → ℝ} {pop : List (List ℝ)} {top : List ℝ}
    {rest : List (List ℝ)}
    (h : List.insertionSort (fun x y => f x ≤ f y) pop = top :: rest) : top ∈ pop := by
  have hm : top ∈ top :: rest := List.mem_cons_self _ _
  rw [← h] at hm
  exact (List.perm_insertionSort _ pop).mem_iff.mp hm

lemma sort_ne_nil {f : List ℝ → ℝ} {pop : List (List ℝ)} (h : pop ≠ []) :
    ∃ top rest, List.insertionSort (fun x y => f x ≤ f y) pop = top :: rest := by
  cases hs : List.insertionSort (fun x y => f x ≤ f y) pop with
  | nil =>
      exfalso
      have hp := List.perm_insertionSort (fun x y : List ℝ => f x ≤ f y) pop
      rw [hs] at hp
      exact h hp.symm.eq_nil
  | cons a l => exact ⟨a, l, rfl⟩

lemma gaRun_best_spec (ga : GeneticAlgorithm) (rng : GARandom) (bounds : List (ℝ × ℝ))
    (f : List ℝ → ℝ) (x0 : List ℝ) :
    ∀ g, 1 ≤ g →
    ∃ bg bf, (gaRun ga rng bounds f x0 g).best = some (bg, bf) ∧ bf = f bg
      ∧ (∃ g' < g, bg ∈ (gaRun ga rng bounds f x0 g').population)
      ∧ (∀ g' < g, ∀ ind ∈ (gaRun ga rng bounds f x0 g').population, bf ≤ f ind) := by
  intro g
  induction g with
  | zero => omega
  | succ n ih =>
      intro _
      obtain ⟨top, rest, hsorted⟩ :=
        sort_ne_nil (f := f) (population_ne_nil ga rng bounds f x0 n)
      by_cases hn : 1 ≤ n
      · obtain ⟨bg, bf, hbest, hbf, ⟨gm, hgm, hmem⟩, hmin⟩ := ih hn
        by_cases hlt : f top < bf
        · refine ⟨top, f top, ?_, rfl, ⟨n, by omega, head_sort_mem hsorted⟩, ?_⟩
          · show (gaStep ga rng bounds f n (gaRun ga rng bounds f x0 n)).best = _
            simp only [gaStep, updateBest, hsorted, hbest]
            rw [if_pos hlt]
          · intro g' hg' ind hind
            rcases Nat.lt_succ_iff_lt_or_eq.mp hg' with h | rfl
            · exact le_trans (le_of_lt hlt) (hmin g' h ind hind)
            · exact head_sort_le hsorted ind hind
        · refine ⟨bg, bf, ?_, hbf, ⟨gm, by omega, hmem⟩, ?_⟩
          · show (gaStep ga rng bounds f n (gaRun ga rng bounds f x0 n)).best = _
            simp only [gaStep, updateBest, hsorted, hbest]
            rw [if_neg hlt]
          · intro g' hg' ind hind
            rcases Nat.lt_succ_iff_lt_or_eq.mp hg' with h | rfl
            · exact hmin g' h ind hind
            · exact le_trans (not_lt.mp hlt) (head_sort_le hsorted ind hind)
      · have hn0 : n = 0 := by omega
        subst hn0
        have hbest0 : (gaRun ga rng bounds f x0 0).best = none := rfl
        refine ⟨top, f top, ?_, rfl, ⟨0, by omega, head_sort_mem hsorted⟩, ?_⟩
        · show (gaStep ga rng bounds f 0 (gaRun ga rng bounds f x0 0)).best = _
          simp only [gaStep, updateBest, hsorted, hbest0]
        · intro g' hg' ind hind
          have hg0 : g' = 0 := by omega
          subst hg0
          exact head_sort_le hsorted ind hind

lemma bestFitnessAfter_antitone (ga : GeneticAlgorithm) (rng : GARandom)
    (bounds : List (ℝ × ℝ)) (f : List ℝ → ℝ) (x0 : List ℝ) (g : ℕ) :
    bestFitnessAfter ga rng bounds f x0 (g + 1) ≤ bestFitnessAfter ga rng bounds f x0 g := by
  unfold bestFitnessAfter
  rcases hb : (gaRun ga rng bounds f x0 g).best with _ | ⟨bg, bf⟩
  · exact le_top
  · obtain ⟨top, rest, hsorted⟩ :=
      sort_ne_nil (f := f) (population_ne_nil ga rng bounds f x0 g)
    have hstep : (gaRun ga rng bounds f x0 (g + 1)).best
        = updateBest f (some (bg, bf)) (top :: rest) := by
      show (gaStep ga rng bounds f g (gaRun ga rng bounds f x0 g)).best = _
      unfold gaStep
      rw [hsorted, hb]
    rw [hstep]
    simp only [updateBest]
    by_cases hlt : f top < bf
    · rw [if_pos hlt]
      show ((f top : ℝ) : WithTop ℝ) ≤ ((bf : ℝ) : WithTop ℝ)
      exact_mod_cast le_of_lt hlt
    · rw [if_neg hlt]

/-- C3: across the generation loop, the best-known fitness is
non-increasing from one generation to the next, and the returned
(genome, fitness) pair of `optimize` is a pair actually evaluated in some
generation whose fitness is minimal over all individuals of all evaluated
generations. -/
theorem C3_fitter_best (ga : GeneticAlgorithm) (rng : GARandom) (f : List ℝ → ℝ)
    (x0 : List ℝ) (bounds : List (ℝ × ℝ)) (hG : 1 ≤ ga.maxIterations) :
    (∀ g, bestFitnessAfter ga rng bounds f x0 (g + 1)
      ≤ bestFitnessAfter ga rng bounds f x0 g)
    ∧ ∃ bg bf, optimize ga rng f x0 bounds = (bg, bf) ∧ bf = f bg
      ∧ (∃ g < ga.maxIterations, bg ∈ (gaRun ga rng bounds f x0 g).population)
      ∧ (∀ g < ga.maxIterations,
          ∀ ind ∈ (gaRun ga rng bounds f x0 g).population, bf ≤ f ind) := by
  constructor
  · intro g
    exact bestFitnessAfter_antitone ga rng bounds f x0 g
  · obtain ⟨bg, bf, hbest, hbf, hmem, hmin⟩ :=
      gaRun_best_spec ga rng bounds f x0 ga.maxIterations hG
    refine ⟨bg, bf, ?_, hbf, hmem, hmin⟩
    unfold optimize
    rw [hbest]

/-- Witness for C3: a one-generation, one-individual run. -/
theorem C3_fitter_best_witness :
    (1 ≤ (⟨1, 1, 0.1, 0.1, 0.2, 10, 0.5, 0.1, false⟩ : GeneticAlgorithm).maxIterations)
    ∧ ((∀ g, bestFitnessAfter ⟨1, 1, 0.1, 0.1, 0.2, 10, 0.5, 0.1, false⟩
          ⟨fun _ _ => 0.5, fun _ _ => 0, fun _ _ _ => 0.5, fun _ _ _ => 0⟩
          [(0, 6)] (fun _ => 0) [1] (g + 1)
        ≤ bestFitnessAfter ⟨1, 1, 0.1, 0.1, 0.2, 10, 0.5, 0.1, false⟩
          ⟨fun _ _ => 0.5, fun _ _ => 0, fun _ _ _ => 0.5, fun _ _ _ => 0⟩
          [(0, 6)] (fun _ => 0) [1] g)
      ∧ ∃ bg bf, optimize ⟨1, 1, 0.1, 0.1, 0.2, 10, 0.5, 0.1, false⟩
          ⟨fun _ _ => 0.5, fun _ _ => 0, fun _ _ _ => 0.5, fun _ _ _ => 0⟩
          (fun _ => 0) [1] [(0, 6)] = (bg, bf) ∧ bf = (fun _ => (0 : ℝ)) bg
        ∧ (∃ g < (⟨1, 1, 0.1, 0.1, 0.2, 10, 0.5, 0.1, false⟩ : GeneticAlgorithm).maxIterations,
            bg ∈ (gaRun ⟨1, 1, 0.1, 0.1, 0.2, 10, 0.5, 0.1, false⟩
              ⟨fun _ _ => 0.5, fun _ _ => 0, fun _ _ _ => 0.5, fun _ _ _ => 0⟩
              [(0, 6)] (fun _ => 0) [1] g).population)
        ∧ (∀ g < (⟨1, 1, 0.1, 0.1, 0.2, 10, 0.5, 0.1, false⟩ : GeneticAlgorithm).maxIterations,
            ∀ ind ∈ (gaRun ⟨1, 1, 0.1, 0.1, 0.2, 10, 0.5, 0.1, false⟩
              ⟨fun _ _ => 0.5, fun _ _ => 0, fun _ _ _ => 0.5, fun _ _ _ => 0⟩
              [(0, 6)] (fun _ => 0) [1] g).population, bf ≤ (fun _ => (0 : ℝ)) ind)) :=
  ⟨by norm_num,
    C3_fitter_best ⟨1, 1, 0.1, 0.1, 0.2, 10, 0.5, 0.1, false⟩
      ⟨fun _ _ => 0.5, fun _ _ => 0, fun _ _ _ => 0.5, fun _ _ _ => 0⟩
      (fun _ => 0) [1] [(0, 6)] (by norm_num)⟩

/-! ## C4: all solver outputs stay inside the parameter box -/

/-- The `tempRatings` map the joint objective rebuilds from a genome:
`tempRatings[name] = params[i]` for slot `i` of the sorted team list. -/
def ratingsFromParams (teamNames : List String) (params : List ℝ) : String → ℝ :=
  fun name => if name ∈ teamNames then params.getD (teamNames.indexOf name) 0 else 0

/-- The objective of `optimizeRatingsAndBias` (src/unnamed/part_013):
`calcError` at the genome's ratings and trailing home-advantage slot. -/
def objectiveRatingsAndBias (events : List Event) (tpw : ℝ) (teamNames : List String) :
    List ℝ → ℝ :=
  fun params =>
    calcError events (ratingsFromParams teamNames params)
      (params.getD teamNames.length 0) tpw

/-- The bounds vector of `optimizeRatingsAndBias`: `[RatingMin, RatingMax]`
per rating slot and `[HomeAdvantageMin, HomeAdvantageMax]` on the trailing
slot. -/
def solverBounds (teamNames : List String) : List (ℝ × ℝ) :=
  List.replicate teamNames.length (RatingMin, RatingMax) ++
    [(HomeAdvantageMin, HomeAdvantageMax)]

/-- The initial genome of `optimizeRatingsAndBias`: the current ratings in
team order plus the mid-point home advantage. -/
def solverX0 (teamNames : List String) (ratings : String → ℝ) : List ℝ :=
  teamNames.map ratings ++ [(HomeAdvantageMin + HomeAdvantageMax) / 2]

/-- `optimizeRatingsAndBias` from src/unnamed/part_013: genome = one slot
per (sorted) team plus a trailing home-advantage slot; afterwards the
ratings map is updated slot-wise from the best genome and the home
advantage read off its last slot. -/
def optimizeRatingsAndBias (ga : GeneticAlgorithm) (rng : GARandom) (events : List Event)
    (teamNames : List String) (ratings : String → ℝ) (tpw : ℝ) : (String → ℝ) × ℝ :=
  let sol := (optimize ga rng (objectiveRatingsAndBias events tpw teamNames)
    (solverX0 teamNames ratings) (solverBounds teamNames)).1
  (fun name =>
      if name ∈ teamNames then sol.getD (teamNames.indexOf name) 0 else ratings name,
    sol.getD teamNames.length 0)

/-- A genome has the right arity and every gene inside its per-gene box. -/
def genomeInBounds (bounds : List (ℝ × ℝ)) (genome : List ℝ) : Prop :=
  genome.length = bounds.length ∧
  ∀ j < bounds.length,
    (bounds.getD j (0, 0)).1 ≤ genome.getD j 0 ∧ genome.getD j 0 ≤ (bounds.getD j (0, 0)).2

/-- Every per-gene box is non-degenerate. -/
def boundsWF (bounds : List (ℝ × ℝ)) : Prop :=
  ∀ j < bounds.length, (bounds.getD j (0, 0)).1 ≤ (bounds.getD j (0, 0)).2

lemma initialPopulation_inBounds {ga : GeneticAlgorithm} {rng : GARandom}
    {x0 : List ℝ} {bounds : List (ℝ × ℝ)}
    (hx0 : genomeInBounds bounds x0) (hwf : boundsWF bounds)
    (hu : ∀ i j, 0 ≤ rng.initU i j ∧ rng.initU i j < 1) :
    ∀ ind ∈ initialPopulation ga rng x0 bounds, genomeInBounds bounds ind := by
  intro ind hind
  unfold initialPopulation at hind
  rcases List.mem_cons.mp hind with rfl | hmem
  · exact hx0
  · obtain ⟨k, _, rfl⟩ := List.mem_map.mp hmem
    constructor
    · simp [hx0.1]
    · intro j hj
      have hjx : j < x0.length := hx0.1 ▸ hj
      rw [getD_map_range _ _ _ hjx]
      have hlohi := hwf j hj
      obtain ⟨hu0, hu1⟩ := hu (k + 1) j
      constructor
      · have hstep : 0 ≤ rng.initU (k + 1) j *
            ((bounds.getD j (0, 0)).2 - (bounds.getD j (0, 0)).1) :=
          mul_nonneg hu0 (by linarith)
        linarith
      · have hstep : rng.initU (k + 1) j *
            ((bounds.getD j (0, 0)).2 - (bounds.getD j (0, 0)).1)
            ≤ 1 * ((bounds.getD j (0, 0)).2 - (bounds.getD j (0, 0)).1) :=
          mul_le_mul_of_nonneg_right (le_of_lt hu1) (by linarith)
        linarith

lemma mutateGene_inBounds {lo hi gene coin noise mProb mFac : ℝ} (hlohi : lo ≤ hi)
    (hg : lo ≤ gene ∧ gene ≤ hi) :
    lo ≤ mutateGene lo hi gene coin noise mProb mFac ∧
    mutateGene lo hi gene coin noise mProb mFac ≤ hi := by
  unfold mutateGene
  split
  · exact ⟨le_max_left _ _, max_le hlohi (min_le_left _ _)⟩
  · exact hg

lemma offspring_inBounds {ga : GeneticAlgorithm} {rng : GARandom}
    {bounds : List (ℝ × ℝ)} {g i : ℕ} {sorted : List (List ℝ)}
    (hwf : boundsWF bounds)
    (hall : ∀ ind ∈ sorted, genomeInBounds bounds ind)
    (hidx : rng.pick g i % nElite ga < sorted.length) :
    genomeInBounds bounds (offspring ga rng bounds g sorted i) := by
  unfold offspring
  have hparent : genomeInBounds bounds (sorted.getD (rng.pick g i % nElite ga) []) := by
    apply hall
    rw [List.getD_eq_getElem _ _ hidx]
    exact List.getElem_mem _
  constructor
  · rw [List.length_map, List.length_range]
    exact hparent.1
  · intro j hj
    have hjp : j < (sorted.getD (rng.pick g i % nElite ga) []).length := hparent.1 ▸ hj
    rw [getD_map_range _ _ _ hjp]
    exact mutateGene_inBounds (hwf j hj) (hparent.2 j hj)

lemma population_length (ga : GeneticAlgorithm) (rng : GARandom) (bounds : List (ℝ × ℝ))
    (f : List ℝ → ℝ) (x0 : List ℝ) (hP : 1 ≤ ga.populationSize)
    (hNE : nElite ga ≤ ga.populationSize) :
    ∀ g, (gaRun ga rng bounds f x0 g).population.length = ga.populationSize := by
  intro g
  induction g with
  | zero =>
      show (initialPopulation ga rng x0 bounds).length = _
      unfold initialPopulation
      simp
      omega
  | succ n ih =>
      show (gaStep ga rng bounds f n (gaRun ga rng bounds f x0 n)).population.length = _
      simp only [gaStep, List.length_append, List.length_take, List.length_map,
        List.length_range]
      have hsl : (List.insertionSort (fun x y => f x ≤ f y)
          (gaRun ga rng bounds f x0 n).population).length = ga.populationSize :=
        (List.perm_insertionSort _ _).length_eq.trans ih
      rw [hsl]
      omega

lemma gaRun_inBounds {ga : GeneticAlgorithm} {rng : GARandom} {bounds : List (ℝ × ℝ)}
    {f : List ℝ → ℝ} {x0 : List ℝ}
    (hP : 1 ≤ ga.populationSize) (hNE : nElite ga ≤ ga.populationSize)
    (hwf : boundsWF bounds) (hx0 : genomeInBounds bounds x0)
    (hu : ∀ i j, 0 ≤ rng.initU i j ∧ rng.initU i j < 1) :
    ∀ g, ∀ ind ∈ (gaRun ga rng bounds f x0 g).population, genomeInBounds bounds ind := by
  intro g
  induction g with
  | zero => exact initialPopulation_inBounds hx0 hwf hu
  | succ n ih =>
      intro ind hind
      have hind' : ind ∈ (gaStep ga rng bounds f n (gaRun ga rng bounds f x0 n)).population :=
        hind
      simp only [gaStep] at hind'
      rcases List.mem_append.mp hind' with h | h
      · exact ih ind ((List.perm_insertionSort _ _).mem_iff.mp (List.mem_of_mem_take h))
      · obtain ⟨k, _, rfl⟩ := List.mem_map.mp h
        apply offspring_inBounds hwf
        · intro ind' hind''
          exact ih ind' ((List.perm_insertionSort _ _).mem_iff.mp hind'')
        · have h1 : rng.pick n (nElite ga + k) % nElite ga < nElite ga :=
            Nat.mod_lt _ (by have := one_le_nElite ga; omega)
          have h2 : (List.insertionSort (fun x y => f x ≤ f y)
              (gaRun ga rng bounds f x0 n).population).length = ga.populationSize :=
            (List.perm_insertionSort _ _).length_eq.trans
              (population_length ga rng bounds f x0 hP hNE n)
          omega

lemma optimize_result_inBounds {ga : GeneticAlgorithm} {rng : GARandom}
    {bounds : List (ℝ × ℝ)} {f : List ℝ → ℝ} {x0 : List ℝ}
    (hG : 1 ≤ ga.maxIterations) (hP : 1 ≤ ga.populationSize)
    (hNE : nElite ga ≤ ga.populationSize)
    (hwf : boundsWF bounds) (hx0 : genomeInBounds bounds x0)
    (hu : ∀ i j, 0 ≤ rng.initU i j ∧ rng.initU i j < 1) :
    genomeInBounds bounds (optimize ga rng f x0 bounds).1 := by
  obtain ⟨bg, bf, hbest, _, ⟨g, _, hmem⟩, _⟩ :=
    gaRun_best_spec ga rng bounds f x0 ga.maxIterations hG
  have hres : (optimize ga rng f x0 bounds).1 = bg := by
    unfold optimize
    rw [hbest]
  rw [hres]
  exact gaRun_inBounds hP hNE hwf hx0 hu g bg hmem

lemma getD_replicate_append_lt {α : Type} {T j : ℕ} (x : α) (l : List α) (d : α)
    (hj : j < T) : (List.replicate T x ++ l).getD j d = x := by
  have hlen : j < (List.replicate T x ++ l).length := by
    simp
    omega
  rw [List.getD_eq_getElem _ _ hlen, List.getElem_append_left (by simpa using hj)]
  simp

lemma getD_replicate_append_last {α : Type} {T : ℕ} (x y : α) (d : α) :
    (List.replicate T x ++ [y]).getD T d = y := by
  have hlen : T < (List.replicate T x ++ [y]).length := by simp
  rw [List.getD_eq_getElem _ _ hlen, List.getElem_append_right (by simp)]
  simp

/-- C4: on every solver run (`generations ≥ 1`, `populationSize ≥ 1`,
`nElite ≤ populationSize`, uniform draws in `[0,1)`) whose initial ratings
lie within `[RatingMin, RatingMax]`, every rating in the returned map lies
in `[0, 6]` and the returned home advantage lies in `[0, 1.5]`. -/
theorem C4_solver_bounds (ga : GeneticAlgorithm) (rng : GARandom) (events : List Event)
    (teamNames : List String) (ratings : String → ℝ) (tpw : ℝ)
    (hG : 1 ≤ ga.maxIterations) (hP : 1 ≤ ga.populationSize)
    (hNE : nElite ga ≤ ga.populationSize)
    (hu : ∀ i j, 0 ≤ rng.initU i j ∧ rng.initU i j < 1)
    (hinit : ∀ name ∈ teamNames, RatingMin ≤ ratings name ∧ ratings name ≤ RatingMax) :
    (∀ name ∈ teamNames,
      RatingMin ≤ (optimizeRatingsAndBias ga rng events teamNames ratings tpw).1 name
      ∧ (optimizeRatingsAndBias ga rng events teamNames ratings tpw).1 name ≤ RatingMax)
    ∧ HomeAdvantageMin ≤ (optimizeRatingsAndBias ga rng events teamNames ratings tpw).2
    ∧ (optimizeRatingsAndBias ga rng events teamNames ratings tpw).2
        ≤ HomeAdvantageMax := by
  have hboundslen : (solverBounds teamNames).length = teamNames.length + 1 := by
    simp [solverBounds]
  have hwf : boundsWF (solverBounds teamNames) := by
    intro j hj
    rw [hboundslen] at hj
    rcases Nat.lt_succ_iff_lt_or_eq.mp hj with h | rfl
    · unfold solverBounds
      rw [getD_replicate_append_lt _ _ _ h]
      unfold RatingMin RatingMax
      norm_num
    · unfold solverBounds
      rw [getD_replicate_append_last]
      unfold HomeAdvantageMin HomeAdvantageMax
      norm_num
  have hx0 : genomeInBounds (solverBounds teamNames) (solverX0 teamNames ratings) := by
    constructor
    · simp [solverX0, hboundslen]
    · intro j hj
      rw [hboundslen] at hj
      rcases Nat.lt_succ_iff_lt_or_eq.mp hj with h | rfl
      · unfold solverBounds
        rw [getD_replicate_append_lt _ _ _ h]
        have hjm : j < (teamNames.map ratings).length := by simpa using h
        unfold solverX0
        rw [List.getD_append _ _ _ _ hjm, List.getD_eq_getElem _ _ hjm]
        simp only [List.getElem_map]
        exact hinit _ (List.getElem_mem _)
      · unfold solverBounds solverX0
        rw [getD_replicate_append_last]
        have hTm : (teamNames.map ratings).length = teamNames.length := by simp
        have hmid : (teamNames.map ratings ++
            [(HomeAdvantageMin + HomeAdvantageMax) / 2]).getD teamNames.length 0
            = (HomeAdvantageMin + HomeAdvantageMax) / 2 := by
          rw [← hTm]
          have hlen : (teamNames.map ratings).length <
              (teamNames.map ratings ++
                [(HomeAdvantageMin + HomeAdvantageMax) / 2]).length := by
            simp
          rw [List.getD_eq_getElem _ _ hlen, List.getElem_append_right (le_refl _)]
          simp
        rw [hmid]
        unfold HomeAdvantageMin HomeAdvantageMax
        norm_num
  have hsol := optimize_result_inBounds (f := objectiveRatingsAndBias events tpw teamNames)
    hG hP hNE hwf hx0 hu
  constructor
  · intro name hname
    have hidx : teamNames.indexOf name < teamNames.length :=
      List.indexOf_lt_length.mpr hname
    have hb := hsol.2 (teamNames.indexOf name) (by omega)
    unfold solverBounds at hb
    rw [getD_replicate_append_lt _ _ _ hidx] at hb
    have hval : (optimizeRatingsAndBias ga rng events teamNames ratings tpw).1 name
        = (optimize ga rng (objectiveRatingsAndBias events tpw teamNames)
            (solverX0 teamNames ratings) (solverBounds teamNames)).1.getD
            (teamNames.indexOf name) 0 := by
      simp only [optimizeRatingsAndBias]
      rw [if_pos hname]
    rw [hval]
    exact hb
  · have hb := hsol.2 teamNames.length (by omega)
    unfold solverBounds at hb
    rw [getD_replicate_append_last] at hb
    exact hb

/-- Concrete solver configuration used by the C4 witness: one generation,
population of one. -/
def ga₀ : GeneticAlgorithm := ⟨1, 1, 0.1, 0.1, 0.2, 10, 0.5, 0.1, false⟩

/-- Concrete random stream used by the C4 witness. -/
def rng₀ : GARandom := ⟨fun _ _ => 0.5, fun _ _ => 0, fun _ _ _ => 0.5, fun _ _ _ => 0⟩

/-- Concrete unit initial ratings used by the C4 witness. -/
def ratings₀ : String → ℝ := fun _ => 1

lemma nElite_ga₀ : nElite ga₀ = 1 := by
  unfold nElite ga₀
  rw [show ((((1 : ℕ) : ℝ)) * (0.1 : ℝ)) = 0.1 by norm_num,
    max_eq_left (by norm_num : (0.1 : ℝ) ≤ 1), Int.floor_one]
  rfl

lemma nElite_ga₀_le : nElite ga₀ ≤ ga₀.populationSize := by
  rw [nElite_ga₀]
  exact le_refl 1

/-- Witness for C4: one team, unit initial rating, a one-generation
single-individual run. -/
theorem C4_solver_bounds_witness :
    (∀ name ∈ ["A"],
      RatingMin ≤ ratings₀ name ∧ ratings₀ name ≤ RatingMax)
    ∧ ((∀ name ∈ ["A"],
        RatingMin ≤ (optimizeRatingsAndBias ga₀ rng₀ [] ["A"] ratings₀ 1).1 name
        ∧ (optimizeRatingsAndBias ga₀ rng₀ [] ["A"] ratings₀ 1).1 name ≤ RatingMax)
      ∧ HomeAdvantageMin ≤ (optimizeRatingsAndBias ga₀ rng₀ [] ["A"] ratings₀ 1).2
      ∧ (optimizeRatingsAndBias ga₀ rng₀ [] ["A"] ratings₀ 1).2 ≤ HomeAdvantageMax) := by
  refine ⟨?_, ?_⟩
  · intro name _
    unfold ratings₀ RatingMin RatingMax
    norm_num
  · exact C4_solver_bounds ga₀ rng₀ [] ["A"] ratings₀ 1 (by decide)
      (by decide) nElite_ga₀_le
      (by intro i j; unfold rng₀; norm_num)
      (by intro name _; unfold ratings₀ RatingMin RatingMax; norm_num)

/-! ## C7: monotonicity of the 1X2 projection in the ratings

The matrix cell factors as
`exp(-λh)·exp(-λa) · (λh^i/i!) · (τ(i,j)·λa^j/j!)`, so each masked mass is
`exp(-λh)·exp(-λa)` times a polynomial in `λh` of degree `N-1 = 10` whose
coefficients are polynomials in `λa`; the normalizing exponentials cancel
in the match-odds ratios. -/

lemma factorial_eq (n : ℕ) : factorial n = (n.factorial : ℝ) := by
  induction n with
  | zero => simp [factorial]
  | succ n ih =>
      rcases Nat.lt_or_ge n 1 with h | h
      · have hn : n = 0 := by omega
        subst hn
        unfold factorial
        simp [Nat.factorial]
      · unfold factorial
        rw [Finset.prod_Icc_succ_top (by omega : 2 ≤ n + 1)]
        rw [show ∏ i in Finset.Icc 2 n, (i : ℝ) = factorial n from rfl, ih]
        rw [Nat.factorial_succ]
        push_cast
        ring

lemma factorial_pos (n : ℕ) : 0 < factorial n := by
  rw [factorial_eq]
  exact_mod_cast Nat.factorial_pos n

/-- `c_j = λa^j / j!`, the away-side factor of a cell without its
exponential. -/
def cj (v : ℝ) (j : ℕ) : ℝ := v ^ j / factorial j

/-- The Dixon–Coles factor at the fixed `ρ = DefaultRho`. -/
def tau (i j : ℕ) : ℝ := dixonColesAdjustment i j DefaultRho

/-- Coefficient of `λh^i/i!` in the home-win mass: away goals `j < i`. -/
def coefH (v : ℝ) (i : ℕ) : ℝ :=
  ∑ j in Finset.range DefaultN, if j < i then tau i j * cj v j else 0

/-- Coefficient of `λh^i/i!` in the draw mass: away goals `j = i`. -/
def coefD (v : ℝ) (i : ℕ) : ℝ :=
  ∑ j in Finset.range DefaultN, if i = j then tau i j * cj v j else 0

/-- Coefficient of `λh^i/i!` in the away-win mass: away goals `j > i`. -/
def coefA (v : ℝ) (i : ℕ) : ℝ :=
  ∑ j in Finset.range DefaultN, if i < j then tau i j * cj v j else 0

/-- The home-win mass stripped of its exponential factor. -/
def polyMass (coef : ℝ → ℕ → ℝ) (x v : ℝ) : ℝ :=
  ∑ i in Finset.range DefaultN, coef v i / factorial i * x ^ i

lemma cell_factor (x v : ℝ) (i j : ℕ) :
    matrixCell x v DefaultRho i j
      = Real.exp (-x) * Real.exp (-v) * (tau i j * cj v j / factorial i * x ^ i) := by
  unfold matrixCell poissonProb tau cj
  ring

lemma mass_eq_poly (x v : ℝ) (mask : ℕ → ℕ → Bool) (coef : ℝ → ℕ → ℝ)
    (hcoef : ∀ i, coef v i = ∑ j in Finset.range DefaultN,
      if mask i j then tau i j * cj v j else 0) :
    (ScoreMatrix.probability ⟨x, v, DefaultRho, DefaultN⟩ mask)
      = Real.exp (-x) * Real.exp (-v) * polyMass coef x v := by
  unfold ScoreMatrix.probability polyMass
  rw [Finset.mul_sum]
  refine Finset.sum_congr rfl ?_
  intro i _
  rw [hcoef i, Finset.sum_div, Finset.sum_mul, Finset.mul_sum]
  refine Finset.sum_congr rfl ?_
  intro j _
  show (if mask i j then ScoreMatrix.cell ⟨x, v, DefaultRho, DefaultN⟩ i j else 0) = _
  unfold ScoreMatrix.cell
  by_cases hm : mask i j
  · rw [if_pos hm, if_pos hm, cell_factor]
  · rw [if_neg hm, if_neg hm]
    simp

lemma homeMass_eq (x v : ℝ) :
    (ScoreMatrix.probability ⟨x, v, DefaultRho, DefaultN⟩ (fun i j => decide (j < i)))
      = Real.exp (-x) * Real.exp (-v) * polyMass coefH x v := by
  apply mass_eq_poly
  intro i
  unfold coefH
  refine Finset.sum_congr rfl ?_
  intro j _
  by_cases h : j < i
  · simp [h]
  · simp [h]

lemma drawMass_eq (x v : ℝ) :
    (ScoreMatrix.probability ⟨x, v, DefaultRho, DefaultN⟩ (fun i j => decide (i = j)))
      = Real.exp (-x) * Real.exp (-v) * polyMass coefD x v := by
  apply mass_eq_poly
  intro i
  unfold coefD
  refine Finset.sum_congr rfl ?_
  intro j _
  by_cases h : i = j
  · simp [h]
  · simp [h]

lemma awayMass_eq (x v : ℝ) :
    (ScoreMatrix.probability ⟨x, v, DefaultRho, DefaultN⟩ (fun i j => decide (i < j)))
      = Real.exp (-x) * Real.exp (-v) * polyMass coefA x v := by
  apply mass_eq_poly
  intro i
  unfold coefA
  refine Finset.sum_congr rfl ?_
  intro j _
  by_cases h : i < j
  · simp [h]
  · simp [h]

/-- The normalized home-win probability of `MatchOdds` at lambdas
`(λh, λa)` (entry 0 of the returned triple). -/
def pHomeWin (x v : ℝ) : ℝ :=
  (ScoreMatrix.matchOdds ⟨x, v, DefaultRho, DefaultN⟩).getD 0 0

/-- The normalized away-win probability of `MatchOdds` at lambdas
`(λh, λa)` (entry 2 of the returned triple). -/
def pAwayWin (x v : ℝ) : ℝ :=
  (ScoreMatrix.matchOdds ⟨x, v, DefaultRho, DefaultN⟩).getD 2 0

lemma pHomeWin_eq (x v : ℝ) :
    pHomeWin x v
      = polyMass coefH x v / (polyMass coefH x v + polyMass coefD x v + polyMass coefA x v) := by
  unfold pHomeWin ScoreMatrix.matchOdds
  show (ScoreMatrix.probability _ _) / _ = _
  rw [homeMass_eq, drawMass_eq, awayMass_eq]
  rw [show Real.exp (-x) * Real.exp (-v) * polyMass coefH x v +
      Real.exp (-x) * Real.exp (-v) * polyMass coefD x v +
      Real.exp (-x) * Real.exp (-v) * polyMass coefA x v
      = Real.exp (-x) * Real.exp (-v) *
        (polyMass coefH x v + polyMass coefD x v + polyMass coefA x v) by ring]
  rw [mul_div_mul_left _ _ (by positivity : Real.exp (-x) * Real.exp (-v) ≠ 0)]

lemma pAwayWin_eq (x v : ℝ) :
    pAwayWin x v
      = polyMass coefA x v / (polyMass coefH x v + polyMass coefD x v + polyMass coefA x v) := by
  unfold pAwayWin ScoreMatrix.matchOdds
  show (ScoreMatrix.probability _ _) / _ = _
  rw [homeMass_eq, drawMass_eq, awayMass_eq]
  rw [show Real.exp (-x) * Real.exp (-v) * polyMass coefH x v +
      Real.exp (-x) * Real.exp (-v) * polyMass coefD x v +
      Real.exp (-x) * Real.exp (-v) * polyMass coefA x v
      = Real.exp (-x) * Real.exp (-v) *
        (polyMass coefH x v + polyMass coefD x v + polyMass coefA x v) by ring]
  rw [mul_div_mul_left _ _ (by positivity : Real.exp (-x) * Real.exp (-v) ≠ 0)]

lemma sum_mul_sum_sub (n : ℕ) (a b : ℕ → ℝ) (x y : ℝ) :
    (∑ i in Finset.range n, a i * y ^ i) * (∑ k in Finset.range n, b k * x ^ k)
      - (∑ i in Finset.range n, a i * x ^ i) * (∑ k in Finset.range n, b k * y ^ k)
    = ∑ p in (Finset.range n ×ˢ Finset.range n).filter (fun p => p.2 < p.1),
        (a p.1 * b p.2 - a p.2 * b p.1) * (y ^ p.1 * x ^ p.2 - x ^ p.1 * y ^ p.2) := by
  classical
  set P := Finset.range n ×ˢ Finset.range n with hP
  set F : ℕ × ℕ → ℝ := fun p =>
    a p.1 * y ^ p.1 * (b p.2 * x ^ p.2) - a p.1 * x ^ p.1 * (b p.2 * y ^ p.2) with hF
  have h1 : (∑ i in Finset.range n, a i * y ^ i) * (∑ k in Finset.range n, b k * x ^ k)
      - (∑ i in Finset.range n, a i * x ^ i) * (∑ k in Finset.range n, b k * y ^ k)
      = ∑ p in P, F p := by
    rw [Finset.sum_mul_sum, Finset.sum_mul_sum, hP]
    rw [Finset.sum_product (f := F)]
    rw [← Finset.sum_sub_distrib]
    refine Finset.sum_congr rfl ?_
    intro i _
    rw [← Finset.sum_sub_distrib]
  rw [h1]
  have hsplit := Finset.sum_filter_add_sum_filter_not P (fun p => p.2 < p.1) F
  rw [← hsplit]
  have hsplit2 := Finset.sum_filter_add_sum_filter_not
    (P.filter (fun p => ¬ p.2 < p.1)) (fun p => p.1 < p.2) F
  rw [← hsplit2]
  have hdiag : ∑ p in (P.filter (fun p => ¬ p.2 < p.1)).filter (fun p => ¬ p.1 < p.2), F p
      = 0 := by
    refine Finset.sum_eq_zero ?_
    intro p hp
    simp only [Finset.mem_filter] at hp
    have heq : p.1 = p.2 := by omega
    rw [hF]
    simp only
    rw [heq]
    ring
  have hlow : (P.filter (fun p => ¬ p.2 < p.1)).filter (fun p => p.1 < p.2)
      = P.filter (fun p => p.1 < p.2) := by
    rw [Finset.filter_filter]
    refine Finset.filter_congr ?_
    intro p _
    constructor
    · intro h
      exact h.2
    · intro h
      exact ⟨by omega, h⟩
  rw [hdiag, hlow, add_zero]
  have hswap : ∑ p in P.filter (fun p => p.1 < p.2), F p
      = ∑ p in P.filter (fun p => p.2 < p.1), F p.swap := by
    refine Finset.sum_nbij' (fun p => p.swap) (fun p => p.swap) ?_ ?_ ?_ ?_ ?_
    · intro p hp
      simp only [Finset.mem_filter, Finset.mem_product, hP] at hp ⊢
      exact ⟨⟨hp.1.2, hp.1.1⟩, hp.2⟩
    · intro p hp
      simp only [Finset.mem_filter, Finset.mem_product, hP] at hp ⊢
      exact ⟨⟨hp.1.2, hp.1.1⟩, hp.2⟩
    · intro p _
      simp
    · intro p _
      simp
    · intro p _
      rfl
  rw [hswap, ← Finset.sum_add_distrib]
  refine Finset.sum_congr rfl ?_
  intro p _
  rw [hF]
  simp only [Prod.fst_swap, Prod.snd_swap]
  ring

lemma monomial_diff_nonneg {x y : ℝ} (hx : 0 ≤ x) (hxy : x ≤ y) {k i : ℕ} (hk : k ≤ i) :
    0 ≤ y ^ i * x ^ k - x ^ i * y ^ k := by
  have hy : 0 ≤ y := hx.trans hxy
  have hxi : x ^ i = x ^ (i - k) * (x ^ k) := by
    rw [← pow_add]
    congr 1
    omega
  have hyi : y ^ i = y ^ (i - k) * (y ^ k) := by
    rw [← pow_add]
    congr 1
    omega
  have hle : x ^ (i - k) * (x ^ k * y ^ k) ≤ y ^ (i - k) * (x ^ k * y ^ k) :=
    mul_le_mul_of_nonneg_right (pow_le_pow_left hx hxy _)
      (mul_nonneg (pow_nonneg hx k) (pow_nonneg hy k))
  calc (0 : ℝ) ≤ y ^ (i - k) * (x ^ k * y ^ k) - x ^ (i - k) * (x ^ k * y ^ k) := by
        linarith
    _ = y ^ i * x ^ k - x ^ i * y ^ k := by
        rw [hxi, hyi]
        ring

lemma cross_sum_lt (n : ℕ) (hn : 2 ≤ n) (a b : ℕ → ℝ) {x y : ℝ}
    (hx : 0 ≤ x) (hxy : x < y)
    (ha : ∀ i, 0 ≤ a i) (hb : ∀ i, 0 ≤ b i)
    (hΔ : ∀ k i, k < i → i < n → a k * b i ≤ a i * b k)
    (hstrict : a 0 * b 1 < a 1 * b 0) :
    (∑ i in Finset.range n, a i * x ^ i) * (∑ k in Finset.range n, b k * y ^ k)
      < (∑ i in Finset.range n, a i * y ^ i) * (∑ k in Finset.range n, b k * x ^ k) := by
  rw [← sub_pos, sum_mul_sum_sub]
  have hterm : ∀ p ∈ (Finset.range n ×ˢ Finset.range n).filter (fun p => p.2 < p.1),
      0 ≤ (a p.1 * b p.2 - a p.2 * b p.1) * (y ^ p.1 * x ^ p.2 - x ^ p.1 * y ^ p.2) := by
    intro p hp
    simp only [Finset.mem_filter, Finset.mem_product, Finset.mem_range] at hp
    refine mul_nonneg ?_ ?_
    · have := hΔ p.2 p.1 hp.2 hp.1.1
      linarith
    · exact monomial_diff_nonneg hx (le_of_lt hxy) (le_of_lt hp.2)
  have hmem : ((1, 0) : ℕ × ℕ)
      ∈ (Finset.range n ×ˢ Finset.range n).filter (fun p => p.2 < p.1) := by
    simp only [Finset.mem_filter, Finset.mem_product, Finset.mem_range]
    omega
  have h10 : 0 < (a 1 * b 0 - a 0 * b 1) * (y ^ 1 * x ^ 0 - x ^ 1 * y ^ 0) := by
    have hmono : 0 < y ^ 1 * x ^ 0 - x ^ 1 * y ^ 0 := by
      simp only [pow_one, pow_zero, mul_one]
      linarith
    exact mul_pos (by linarith) hmono
  calc (0 : ℝ) < (a 1 * b 0 - a 0 * b 1) * (y ^ 1 * x ^ 0 - x ^ 1 * y ^ 0) := h10
    _ ≤ ∑ p in (Finset.range n ×ˢ Finset.range n).filter (fun p => p.2 < p.1),
          (a p.1 * b p.2 - a p.2 * b p.1) * (y ^ p.1 * x ^ p.2 - x ^ p.1 * y ^ p.2) :=
        Finset.single_le_sum hterm hmem

/-! ### Structure of the mass coefficients -/

/-- Partial sum `Σ_{j<i} c_j` over the truncated goal range. -/
def Cless (v : ℝ) (i : ℕ) : ℝ :=
  ∑ j in Finset.range DefaultN, if j < i then cj v j else 0

/-- Partial sum `Σ_{j≥i} c_j` over the truncated goal range. -/
def Cge (v : ℝ) (i : ℕ) : ℝ :=
  ∑ j in Finset.range DefaultN, if i ≤ j then cj v j else 0

/-- Partial sum `Σ_{j>i} c_j` over the truncated goal range. -/
def Cgt (v : ℝ) (i : ℕ) : ℝ :=
  ∑ j in Finset.range DefaultN, if i < j then cj v j else 0

/-- Partial sum `Σ_{j≤i} c_j` over the truncated goal range. -/
def Cle (v : ℝ) (i : ℕ) : ℝ :=
  ∑ j in Finset.range DefaultN, if j ≤ i then cj v j else 0

/-- Coefficient of the draw-plus-away mass. -/
def coefDA (v : ℝ) (i : ℕ) : ℝ := coefD v i + coefA v i

/-- Coefficient of the home-plus-draw mass. -/
def coefHD (v : ℝ) (i : ℕ) : ℝ := coefH v i + coefD v i

lemma cj_nonneg {v : ℝ} (hv : 0 ≤ v) (j : ℕ) : 0 ≤ cj v j :=
  div_nonneg (pow_nonneg hv _) (factorial_pos j).le

lemma cj_zero (v : ℝ) : cj v 0 = 1 := by
  unfold cj
  simp [factorial_eq, Nat.factorial]

lemma tau_nonneg (i j : ℕ) : 0 ≤ tau i j := by
  unfold tau dixonColesAdjustment DefaultRho
  split
  · rename_i h
    rw [h.1, h.2]
    norm_num
  · split
    · norm_num
    · split
      · norm_num
      · split
        · norm_num
        · norm_num

lemma tau_left (i j : ℕ) (h : 2 ≤ i) : tau i j = 1 := by
  unfold tau dixonColesAdjustment
  rw [if_neg (by omega), if_neg (by omega), if_neg (by omega), if_neg (by omega)]

lemma tau_right (i j : ℕ) (h : 2 ≤ j) : tau i j = 1 := by
  unfold tau dixonColesAdjustment
  rw [if_neg (by omega), if_neg (by omega), if_neg (by omega), if_neg (by omega)]

lemma coefH_nonneg {v : ℝ} (hv : 0 ≤ v) (i : ℕ) : 0 ≤ coefH v i := by
  refine Finset.sum_nonneg ?_
  intro j _
  split
  · exact mul_nonneg (tau_nonneg i j) (cj_nonneg hv j)
  · exact le_refl 0

lemma coefD_nonneg {v : ℝ} (hv : 0 ≤ v) (i : ℕ) : 0 ≤ coefD v i := by
  refine Finset.sum_nonneg ?_
  intro j _
  split
  · exact mul_nonneg (tau_nonneg i j) (cj_nonneg hv j)
  · exact le_refl 0

lemma coefA_nonneg {v : ℝ} (hv : 0 ≤ v) (i : ℕ) : 0 ≤ coefA v i := by
  refine Finset.sum_nonneg ?_
  intro j _
  split
  · exact mul_nonneg (tau_nonneg i j) (cj_nonneg hv j)
  · exact le_refl 0

lemma coefDA_nonneg {v : ℝ} (hv : 0 ≤ v) (i : ℕ) : 0 ≤ coefDA v i :=
  add_nonneg (coefD_nonneg hv i) (coefA_nonneg hv i)

lemma coefHD_nonneg {v : ℝ} (hv : 0 ≤ v) (i : ℕ) : 0 ≤ coefHD v i :=
  add_nonneg (coefH_nonneg hv i) (coefD_nonneg hv i)

lemma Cless_nonneg {v : ℝ} (hv : 0 ≤ v) (i : ℕ) : 0 ≤ Cless v i := by
  refine Finset.sum_nonneg ?_
  intro j _
  split
  · exact cj_nonneg hv j
  · exact le_refl 0

lemma Cge_nonneg {v : ℝ} (hv : 0 ≤ v) (i : ℕ) : 0 ≤ Cge v i := by
  refine Finset.sum_nonneg ?_
  intro j _
  split
  · exact cj_nonneg hv j
  · exact le_refl 0

lemma Cgt_nonneg {v : ℝ} (hv : 0 ≤ v) (i : ℕ) : 0 ≤ Cgt v i := by
  refine Finset.sum_nonneg ?_
  intro j _
  split
  · exact cj_nonneg hv j
  · exact le_refl 0

lemma Cless_mono {v : ℝ} (hv : 0 ≤ v) {k i : ℕ} (hki : k ≤ i) :
    Cless v k ≤ Cless v i := by
  refine Finset.sum_le_sum ?_
  intro j _
  by_cases h : j < k
  · rw [if_pos h, if_pos (by omega)]
  · rw [if_neg h]
    split
    · exact cj_nonneg hv j
    · exact le_refl 0

lemma Cle_mono {v : ℝ} (hv : 0 ≤ v) {k i : ℕ} (hki : k ≤ i) :
    Cle v k ≤ Cle v i := by
  refine Finset.sum_le_sum ?_
  intro j _
  by_cases h : j ≤ k
  · rw [if_pos h, if_pos (by omega)]
  · rw [if_neg h]
    split
    · exact cj_nonneg hv j
    · exact le_refl 0

lemma Cge_anti {v : ℝ} (hv : 0 ≤ v) {k i : ℕ} (hki : k ≤ i) :
    Cge v i ≤ Cge v k := by
  refine Finset.sum_le_sum ?_
  intro j _
  by_cases h : i ≤ j
  · rw [if_pos h, if_pos (by omega)]
  · rw [if_neg h]
    split
    · exact cj_nonneg hv j
    · exact le_refl 0

lemma Cgt_anti {v : ℝ} (hv : 0 ≤ v) {k i : ℕ} (hki : k ≤ i) :
    Cgt v i ≤ Cgt v k := by
  refine Finset.sum_le_sum ?_
  intro j _
  by_cases h : i < j
  · rw [if_pos h, if_pos (by omega)]
  · rw [if_neg h]
    split
    · exact cj_nonneg hv j
    · exact le_refl 0

lemma Cle_ge_one {v : ℝ} (hv : 0 ≤ v) (i : ℕ) : 1 ≤ Cle v i := by
  unfold Cle
  have hmem : (0 : ℕ) ∈ Finset.range DefaultN := by
    unfold DefaultN
    simp
  have h := Finset.single_le_sum
    (f := fun j => if j ≤ i then cj v j else 0) (fun j _ => by
      show (0 : ℝ) ≤ if j ≤ i then cj v j else 0
      by_cases hj : j ≤ i
      · rw [if_pos hj]
        exact cj_nonneg hv j
      · rw [if_neg hj]) hmem
  simpa [cj_zero] using h

lemma Cgt_eq_Cge_succ (v : ℝ) (i : ℕ) : Cgt v i = Cge v (i + 1) := by
  refine Finset.sum_congr rfl ?_
  intro j _
  exact if_congr (by omega) rfl rfl

lemma Cge_split (v : ℝ) {i : ℕ} (hi : i < DefaultN) :
    Cge v i = cj v i + Cgt v i := by
  unfold Cge Cgt
  have hterm : ∀ j, (if i ≤ j then cj v j else 0)
      = (if i = j then cj v j else 0) + (if i < j then cj v j else 0) := by
    intro j
    rcases lt_trichotomy i j with h | h | h
    · rw [if_pos (by omega), if_neg (by omega), if_pos h, zero_add]
    · rw [if_pos (by omega), if_pos h, if_neg (by omega), add_zero]
    · rw [if_neg (by omega), if_neg (by omega), if_neg (by omega), add_zero]
  rw [Finset.sum_congr rfl (fun j _ => hterm j), Finset.sum_add_distrib]
  congr 1
  rw [Finset.sum_eq_single i]
  · rw [if_pos rfl]
  · intro j _ hne
    rw [if_neg (fun h => hne h.symm)]
  · intro habs
    exact absurd (Finset.mem_range.mpr hi) habs

lemma Cle_split (v : ℝ) {i : ℕ} (hi : i < DefaultN) :
    Cle v i = Cless v i + cj v i := by
  unfold Cle Cless
  have hterm : ∀ j, (if j ≤ i then cj v j else 0)
      = (if j < i then cj v j else 0) + (if i = j then cj v j else 0) := by
    intro j
    rcases lt_trichotomy j i with h | h | h
    · rw [if_pos (by omega), if_pos h, if_neg (by omega), add_zero]
    · rw [if_pos (by omega), if_neg (by omega), if_pos h.symm, zero_add]
    · rw [if_neg (by omega), if_neg (by omega), if_neg (by omega), add_zero]
  rw [Finset.sum_congr rfl (fun j _ => hterm j), Finset.sum_add_distrib]
  congr 1
  rw [Finset.sum_eq_single i]
  · rw [if_pos rfl]
  · intro j _ hne
    rw [if_neg (fun h => hne h.symm)]
  · intro habs
    exact absurd (Finset.mem_range.mpr hi) habs

/-! ### Evaluation of the low coefficients -/

lemma coefH_zero (v : ℝ) : coefH v 0 = 0 := by
  unfold coefH
  simp

lemma coefH_one (v : ℝ) : coefH v 1 = 21 / 20 := by
  unfold coefH DefaultN tau dixonColesAdjustment DefaultRho cj
  simp [Finset.sum_range_succ, factorial_eq]
  norm_num [Nat.factorial]

lemma coefH_eq_Cless {v : ℝ} {i : ℕ} (h2 : 2 ≤ i) : coefH v i = Cless v i := by
  unfold coefH Cless
  refine Finset.sum_congr rfl ?_
  intro j _
  by_cases h : j < i
  · rw [if_pos h, if_pos h, tau_left i j h2, one_mul]
  · rw [if_neg h, if_neg h]

lemma coefD_zero (v : ℝ) : coefD v 0 = 1 := by
  unfold coefD DefaultN tau dixonColesAdjustment DefaultRho cj
  simp [Finset.sum_range_succ, factorial_eq]

lemma coefD_one (v : ℝ) : coefD v 1 = 9 / 10 * v := by
  unfold coefD DefaultN tau dixonColesAdjustment DefaultRho cj
  simp [Finset.sum_range_succ, factorial_eq]
  norm_num [Nat.factorial]

lemma coefD_eq_cj {v : ℝ} {i : ℕ} (h2 : 2 ≤ i) (hi : i < DefaultN) :
    coefD v i = cj v i := by
  unfold coefD
  rw [Finset.sum_eq_single i]
  · rw [if_pos rfl, tau_left i i h2, one_mul]
  · intro j _ hne
    rw [if_neg (fun h => hne h.symm)]
  · intro habs
    exact absurd (Finset.mem_range.mpr hi) habs

lemma coefA_zero (v : ℝ) : coefA v 0 = 21 / 20 * v + Cgt v 1 := by
  unfold coefA Cgt DefaultN tau dixonColesAdjustment DefaultRho cj
  simp [Finset.sum_range_succ, factorial_eq]
  norm_num [Nat.factorial]
  ring

lemma coefA_one (v : ℝ) : coefA v 1 = Cgt v 1 := by
  unfold coefA Cgt
  refine Finset.sum_congr rfl ?_
  intro j _
  by_cases h : 1 < j
  · rw [if_pos h, if_pos h, tau_right 1 j (by omega), one_mul]
  · rw [if_neg h, if_neg h]

lemma coefA_eq_Cgt {v : ℝ} {i : ℕ} (h2 : 2 ≤ i) : coefA v i = Cgt v i := by
  unfold coefA Cgt
  refine Finset.sum_congr rfl ?_
  intro j _
  by_cases h : i < j
  · rw [if_pos h, if_pos h, tau_right i j (by omega), one_mul]
  · rw [if_neg h, if_neg h]

lemma coefDA_one (v : ℝ) : coefDA v 1 = 9 / 10 * v + Cgt v 1 := by
  unfold coefDA
  rw [coefD_one, coefA_one]

lemma coefDA_eq_Cge {v : ℝ} {i : ℕ} (h2 : 2 ≤ i) (hi : i < DefaultN) :
    coefDA v i = Cge v i := by
  unfold coefDA
  rw [coefD_eq_cj h2 hi, coefA_eq_Cgt h2, Cge_split v hi]

lemma coefHD_zero (v : ℝ) : coefHD v 0 = 1 := by
  unfold coefHD
  rw [coefH_zero, coefD_zero, zero_add]

lemma coefHD_one (v : ℝ) : coefHD v 1 = 21 / 20 + 9 / 10 * v := by
  unfold coefHD
  rw [coefH_one, coefD_one]

lemma coefHD_eq_Cle {v : ℝ} {i : ℕ} (h2 : 2 ≤ i) (hi : i < DefaultN) :
    coefHD v i = Cle v i := by
  unfold coefHD
  rw [coefH_eq_Cless h2, coefD_eq_cj h2 hi, Cle_split v hi]

/-! ### Explicit expansions of the tail sums -/

lemma Cge_two_eval (v : ℝ) : Cge v 2
    = v ^ 2 / 2 + v ^ 3 / 6 + v ^ 4 / 24 + v ^ 5 / 120 + v ^ 6 / 720 + v ^ 7 / 5040
      + v ^ 8 / 40320 + v ^ 9 / 362880 + v ^ 10 / 3628800 := by
  unfold Cge DefaultN cj
  simp [Finset.sum_range_succ, factorial_eq]
  norm_num [Nat.factorial]

lemma Cgt_one_eval (v : ℝ) : Cgt v 1
    = v ^ 2 / 2 + v ^ 3 / 6 + v ^ 4 / 24 + v ^ 5 / 120 + v ^ 6 / 720 + v ^ 7 / 5040
      + v ^ 8 / 40320 + v ^ 9 / 362880 + v ^ 10 / 3628800 := by
  rw [Cgt_eq_Cge_succ, Cge_two_eval]

lemma Cgt_two_eval (v : ℝ) : Cgt v 2
    = v ^ 3 / 6 + v ^ 4 / 24 + v ^ 5 / 120 + v ^ 6 / 720 + v ^ 7 / 5040
      + v ^ 8 / 40320 + v ^ 9 / 362880 + v ^ 10 / 3628800 := by
  unfold Cgt DefaultN cj
  simp [Finset.sum_range_succ, factorial_eq]
  norm_num [Nat.factorial]

lemma Cless_two_eval (v : ℝ) : Cless v 2 = 1 + v := by
  unfold Cless DefaultN cj
  simp [Finset.sum_range_succ, factorial_eq]

lemma Cle_two_eval (v : ℝ) : Cle v 2 = 1 + v + v ^ 2 / 2 := by
  unfold Cle DefaultN cj
  simp [Finset.sum_range_succ, factorial_eq]

/-! ### The pairwise coefficient inequalities -/

lemma deltaH_key {v : ℝ} (hv : 0 ≤ v) :
    coefH v 1 * coefDA v 2 ≤ coefH v 2 * coefDA v 1 := by
  rw [coefH_one, coefDA_eq_Cge (by omega) (by unfold DefaultN; omega),
    coefH_eq_Cless (by omega), Cless_two_eval, coefDA_one]
  rw [Cgt_one_eval, Cge_two_eval]
  rw [← sub_nonneg]
  ring_nf
  positivity

lemma deltaAway_key {v : ℝ} (hv : 0 ≤ v) :
    coefHD v 1 * coefA v 2 ≤ coefHD v 2 * coefA v 1 := by
  rw [coefHD_one, coefA_eq_Cgt (by omega), coefHD_eq_Cle (by omega) (by unfold DefaultN; omega),
    Cle_two_eval, coefA_one]
  rw [Cgt_one_eval, Cgt_two_eval]
  rw [← sub_nonneg]
  ring_nf
  positivity

lemma deltaH {v : ℝ} (hv : 0 ≤ v) :
    ∀ k i, k < i → i < DefaultN → coefH v k * coefDA v i ≤ coefH v i * coefDA v k := by
  intro k i hki hiN
  match k with
  | 0 =>
      rw [coefH_zero, zero_mul]
      exact mul_nonneg (coefH_nonneg hv i) (coefDA_nonneg hv 0)
  | 1 =>
      have h2i : 2 ≤ i := by omega
      calc coefH v 1 * coefDA v i ≤ coefH v 1 * coefDA v 2 := by
            refine mul_le_mul_of_nonneg_left ?_ (by rw [coefH_one]; norm_num)
            rw [coefDA_eq_Cge h2i hiN, coefDA_eq_Cge (by omega) (by unfold DefaultN; omega)]
            exact Cge_anti hv h2i
        _ ≤ coefH v 2 * coefDA v 1 := deltaH_key hv
        _ ≤ coefH v i * coefDA v 1 := by
            refine mul_le_mul_of_nonneg_right ?_ ?_
            · rw [coefH_eq_Cless (by omega), coefH_eq_Cless h2i]
              exact Cless_mono hv h2i
            · rw [coefDA_one]
              have := Cgt_nonneg hv (v := v) 1
              positivity
  | (m + 2) =>
      have h2k : 2 ≤ m + 2 := by omega
      have h2i : 2 ≤ i := by omega
      have hkN : m + 2 < DefaultN := by omega
      rw [coefH_eq_Cless h2k, coefH_eq_Cless h2i, coefDA_eq_Cge h2i hiN,
        coefDA_eq_Cge h2k hkN]
      calc Cless v (m + 2) * Cge v i ≤ Cless v i * Cge v i :=
            mul_le_mul_of_nonneg_right (Cless_mono hv (by omega)) (Cge_nonneg hv i)
        _ ≤ Cless v i * Cge v (m + 2) :=
            mul_le_mul_of_nonneg_left (Cge_anti hv (by omega)) (Cless_nonneg hv i)

lemma deltaAway {v : ℝ} (hv : 0 ≤ v) :
    ∀ k i, k < i → i < DefaultN → coefHD v k * coefA v i ≤ coefHD v i * coefA v k := by
  intro k i hki hiN
  match k with
  | 0 =>
      rw [coefHD_zero, one_mul]
      have hA_le : coefA v i ≤ coefA v 0 := by
        rw [coefA_zero]
        match i, hki with
        | 1, _ =>
            rw [coefA_one]
            nlinarith
        | (m + 2), _ =>
            rw [coefA_eq_Cgt (by omega)]
            have h1 : Cgt v (m + 2) ≤ Cgt v 1 := Cgt_anti hv (by omega)
            nlinarith
      have hHD_ge : 1 ≤ coefHD v i := by
        match i, hki with
        | 1, _ =>
            rw [coefHD_one]
            nlinarith
        | (m + 2), _ =>
            rw [coefHD_eq_Cle (by omega) hiN]
            exact Cle_ge_one hv _
      calc coefA v i ≤ coefA v 0 := hA_le
        _ = 1 * coefA v 0 := (one_mul _).symm
        _ ≤ coefHD v i * coefA v 0 :=
            mul_le_mul_of_nonneg_right hHD_ge (coefA_nonneg hv 0)
  | 1 =>
      have h2i : 2 ≤ i := by omega
      calc coefHD v 1 * coefA v i ≤ coefHD v 1 * coefA v 2 := by
            refine mul_le_mul_of_nonneg_left ?_ (by rw [coefHD_one]; nlinarith)
            rw [coefA_eq_Cgt h2i, coefA_eq_Cgt (by omega)]
            exact Cgt_anti hv h2i
        _ ≤ coefHD v 2 * coefA v 1 := deltaAway_key hv
        _ ≤ coefHD v i * coefA v 1 := by
            refine mul_le_mul_of_nonneg_right ?_ ?_
            · rw [coefHD_eq_Cle (by omega) (by unfold DefaultN; omega),
                coefHD_eq_Cle h2i hiN]
              exact Cle_mono hv h2i
            · rw [coefA_one]
              exact Cgt_nonneg hv 1
  | (m + 2) =>
      have h2k : 2 ≤ m + 2 := by omega
      have h2i : 2 ≤ i := by omega
      have hkN : m + 2 < DefaultN := by omega
      rw [coefHD_eq_Cle h2k hkN, coefHD_eq_Cle h2i hiN, coefA_eq_Cgt h2i,
        coefA_eq_Cgt h2k]
      calc Cle v (m + 2) * Cgt v i ≤ Cle v i * Cgt v i :=
            mul_le_mul_of_nonneg_right (Cle_mono hv (by omega)) (Cgt_nonneg hv i)
        _ ≤ Cle v i * Cgt v (m + 2) :=
            mul_le_mul_of_nonneg_left (Cgt_anti hv (by omega))
              (zero_le_one.trans (Cle_ge_one hv i))

/-! ### Ratio monotonicity and symmetry -/

lemma polyMass_nonneg {coef : ℝ → ℕ → ℝ} {v x : ℝ}
    (hc : ∀ i, 0 ≤ coef v i) (hx : 0 ≤ x) : 0 ≤ polyMass coef x v := by
  refine Finset.sum_nonneg ?_
  intro i _
  exact mul_nonneg (div_nonneg (hc i) (factorial_pos i).le) (pow_nonneg hx i)

lemma polyMass_coefD_ge_one {v x : ℝ} (hv : 0 ≤ v) (hx : 0 ≤ x) :
    1 ≤ polyMass coefD x v := by
  unfold polyMass
  have hmem : (0 : ℕ) ∈ Finset.range DefaultN := by
    unfold DefaultN
    simp
  have h := Finset.single_le_sum
    (f := fun i => coefD v i / factorial i * x ^ i) (fun i _ => by
      show (0 : ℝ) ≤ coefD v i / factorial i * x ^ i
      exact mul_nonneg (div_nonneg (coefD_nonneg hv i) (factorial_pos i).le)
        (pow_nonneg hx i)) hmem
  have h' : coefD v 0 / factorial 0 * x ^ 0
      ≤ ∑ i in Finset.range DefaultN, coefD v i / factorial i * x ^ i := h
  have h0 : coefD v 0 / factorial 0 * x ^ 0 = 1 := by
    rw [coefD_zero, pow_zero, factorial_eq]
    norm_num [Nat.factorial]
  rw [h0] at h'
  exact h'

lemma denom_pos {v x : ℝ} (hv : 0 ≤ v) (hx : 0 ≤ x) :
    0 < polyMass coefH x v + polyMass coefD x v + polyMass coefA x v := by
  have h1 := polyMass_nonneg (coefH_nonneg hv) hx
  have h2 := polyMass_coefD_ge_one hv hx
  have h3 := polyMass_nonneg (coefA_nonneg hv) hx
  linarith

lemma polyMass_split_DA (v x : ℝ) :
    polyMass coefD x v + polyMass coefA x v = polyMass coefDA x v := by
  unfold polyMass coefDA
  rw [← Finset.sum_add_distrib]
  refine Finset.sum_congr rfl ?_
  intro i _
  ring

lemma polyMass_split_HD (v x : ℝ) :
    polyMass coefH x v + polyMass coefD x v = polyMass coefHD x v := by
  unfold polyMass coefHD
  rw [← Finset.sum_add_distrib]
  refine Finset.sum_congr rfl ?_
  intro i _
  ring

lemma factorial_zero : factorial 0 = 1 := by
  rw [factorial_eq]
  norm_num [Nat.factorial]

lemma factorial_one : factorial 1 = 1 := by
  rw [factorial_eq]
  norm_num [Nat.factorial]

lemma pHomeWin_strictMono {v x y : ℝ} (hv : 0 ≤ v) (hx : 0 ≤ x) (hxy : x < y) :
    pHomeWin x v < pHomeWin y v := by
  have hy : 0 ≤ y := hx.trans hxy.le
  have hcross : polyMass coefH x v * polyMass coefDA y v
      < polyMass coefH y v * polyMass coefDA x v := by
    unfold polyMass
    refine cross_sum_lt DefaultN (by unfold DefaultN; omega)
      (fun i => coefH v i / factorial i) (fun i => coefDA v i / factorial i)
      hx hxy
      (fun i => div_nonneg (coefH_nonneg hv i) (factorial_pos i).le)
      (fun i => div_nonneg (coefDA_nonneg hv i) (factorial_pos i).le)
      ?_ ?_
    · intro k i hki hiN
      have h := deltaH hv k i hki hiN
      have fk := factorial_pos k
      have fi := factorial_pos i
      show coefH v k / factorial k * (coefDA v i / factorial i)
          ≤ coefH v i / factorial i * (coefDA v k / factorial k)
      rw [div_mul_div_comm, div_mul_div_comm,
        div_le_div_iff (by positivity) (by positivity)]
      nlinarith [mul_le_mul_of_nonneg_right h (mul_pos fk fi).le]
    · show coefH v 0 / factorial 0 * (coefDA v 1 / factorial 1)
          < coefH v 1 / factorial 1 * (coefDA v 0 / factorial 0)
      rw [coefH_zero, coefH_one, factorial_zero, factorial_one]
      have hDA0 : 1 ≤ coefDA v 0 := by
        unfold coefDA
        rw [coefD_zero, coefA_zero]
        have := Cgt_nonneg hv 1
        nlinarith
      have hDA1 : 0 ≤ coefDA v 1 := coefDA_nonneg hv 1
      rw [zero_div, zero_mul]
      have : (0 : ℝ) < 21 / 20 / 1 * (coefDA v 0 / 1) := by
        rw [div_one, div_one]
        nlinarith
      exact this
  rw [pHomeWin_eq, pHomeWin_eq]
  have hdx := denom_pos hv hx
  have hdy := denom_pos hv hy
  rw [div_lt_div_iff hdx hdy]
  have e1 : polyMass coefH x v
        * (polyMass coefH y v + polyMass coefD y v + polyMass coefA y v)
      = polyMass coefH x v * polyMass coefH y v
        + polyMass coefH x v * polyMass coefDA y v := by
    rw [← polyMass_split_DA]
    ring
  have e2 : polyMass coefH y v
        * (polyMass coefH x v + polyMass coefD x v + polyMass coefA x v)
      = polyMass coefH y v * polyMass coefH x v
        + polyMass coefH y v * polyMass coefDA x v := by
    rw [← polyMass_split_DA]
    ring
  rw [e1, e2]
  nlinarith [hcross]

lemma pAwayWin_strictAnti {v x y : ℝ} (hv : 0 < v) (hx : 0 ≤ x) (hxy : x < y) :
    pAwayWin y v < pAwayWin x v := by
  have hy : 0 ≤ y := hx.trans hxy.le
  have hv' : 0 ≤ v := hv.le
  have hcross : polyMass coefHD x v * polyMass coefA y v
      < polyMass coefHD y v * polyMass coefA x v := by
    unfold polyMass
    refine cross_sum_lt DefaultN (by unfold DefaultN; omega)
      (fun i => coefHD v i / factorial i) (fun i => coefA v i / factorial i)
      hx hxy
      (fun i => div_nonneg (coefHD_nonneg hv' i) (factorial_pos i).le)
      (fun i => div_nonneg (coefA_nonneg hv' i) (factorial_pos i).le)
      ?_ ?_
    · intro k i hki hiN
      have h := deltaAway hv' k i hki hiN
      have fk := factorial_pos k
      have fi := factorial_pos i
      show coefHD v k / factorial k * (coefA v i / factorial i)
          ≤ coefHD v i / factorial i * (coefA v k / factorial k)
      rw [div_mul_div_comm, div_mul_div_comm,
        div_le_div_iff (by positivity) (by positivity)]
      nlinarith [mul_le_mul_of_nonneg_right h (mul_pos fk fi).le]
    · show coefHD v 0 / factorial 0 * (coefA v 1 / factorial 1)
          < coefHD v 1 / factorial 1 * (coefA v 0 / factorial 0)
      rw [coefHD_zero, coefHD_one, coefA_one, coefA_zero, factorial_zero, factorial_one]
      have hW := Cgt_nonneg hv' 1
      rw [div_one, div_one, div_one, div_one, one_mul]
      nlinarith
  rw [pAwayWin_eq, pAwayWin_eq]
  have hdx := denom_pos hv' hx
  have hdy := denom_pos hv' hy
  rw [div_lt_div_iff hdy hdx]
  have e1 : polyMass coefA y v
        * (polyMass coefH x v + polyMass coefD x v + polyMass coefA x v)
      = polyMass coefA y v * polyMass coefHD x v
        + polyMass coefA y v * polyMass coefA x v := by
    rw [← polyMass_split_HD]
    ring
  have e2 : polyMass coefA x v
        * (polyMass coefH y v + polyMass coefD y v + polyMass coefA y v)
      = polyMass coefA x v * polyMass coefHD y v
        + polyMass coefA x v * polyMass coefA y v := by
    rw [← polyMass_split_HD]
    ring
  rw [e1, e2]
  nlinarith [hcross]

lemma tau_symm (i j : ℕ) : tau i j = tau j i := by
  rcases Nat.lt_or_ge i 2 with hi | hi
  · rcases Nat.lt_or_ge j 2 with hj | hj
    · interval_cases i <;> interval_cases j <;>
        simp [tau, dixonColesAdjustment]
    · rw [tau_right i j hj, tau_left j i hj]
  · rw [tau_left i j hi, tau_right j i hi]

lemma mass_swap_H (x v : ℝ) :
    ScoreMatrix.probability ⟨x, v, DefaultRho, DefaultN⟩ (fun i j => decide (j < i))
      = ScoreMatrix.probability ⟨v, x, DefaultRho, DefaultN⟩ (fun i j => decide (i < j)) := by
  unfold ScoreMatrix.probability
  rw [Finset.sum_comm]
  refine Finset.sum_congr rfl ?_
  intro i _
  refine Finset.sum_congr rfl ?_
  intro j _
  by_cases h : i < j
  · rw [if_pos (by simpa using h), if_pos (by simpa using h)]
    show matrixCell x v DefaultRho j i = matrixCell v x DefaultRho i j
    unfold matrixCell
    rw [show dixonColesAdjustment j i DefaultRho = dixonColesAdjustment i j DefaultRho from
      tau_symm j i]
    ring
  · rw [if_neg (by simpa using h), if_neg (by simpa using h)]

lemma mass_swap_D (x v : ℝ) :
    ScoreMatrix.probability ⟨x, v, DefaultRho, DefaultN⟩ (fun i j => decide (i = j))
      = ScoreMatrix.probability ⟨v, x, DefaultRho, DefaultN⟩ (fun i j => decide (i = j)) := by
  unfold ScoreMatrix.probability
  rw [Finset.sum_comm]
  refine Finset.sum_congr rfl ?_
  intro i _
  refine Finset.sum_congr rfl ?_
  intro j _
  by_cases h : i = j
  · rw [if_pos (by simpa using h.symm), if_pos (by simpa using h)]
    show matrixCell x v DefaultRho j i = matrixCell v x DefaultRho i j
    unfold matrixCell
    rw [show dixonColesAdjustment j i DefaultRho = dixonColesAdjustment i j DefaultRho from
      tau_symm j i]
    ring
  · rw [if_neg (by simpa using fun hh => h hh.symm), if_neg (by simpa using h)]

lemma pAwayWin_swap (x v : ℝ) : pAwayWin v x = pHomeWin x v := by
  unfold pAwayWin pHomeWin ScoreMatrix.matchOdds
  show (ScoreMatrix.probability _ _) / _ = (ScoreMatrix.probability _ _) / _
  rw [show (ScoreMatrix.probability ⟨v, x, DefaultRho, DefaultN⟩ (fun i j => decide (i < j)))
      = (ScoreMatrix.probability ⟨x, v, DefaultRho, DefaultN⟩ (fun i j => decide (j < i))) from
    (mass_swap_H x v).symm]
  rw [show (ScoreMatrix.probability ⟨v, x, DefaultRho, DefaultN⟩ (fun i j => decide (j < i)))
      = (ScoreMatrix.probability ⟨x, v, DefaultRho, DefaultN⟩ (fun i j => decide (i < j))) from
    (mass_swap_H v x)]
  rw [show (ScoreMatrix.probability ⟨v, x, DefaultRho, DefaultN⟩ (fun i j => decide (i = j)))
      = (ScoreMatrix.probability ⟨x, v, DefaultRho, DefaultN⟩ (fun i j => decide (i = j))) from
    (mass_swap_D v x)]
  ring_nf

lemma pHomeWin_swap (x v : ℝ) : pHomeWin v x = pAwayWin x v :=
  (pAwayWin_swap v x).symm

lemma coefA_at_zero (i : ℕ) : coefA 0 i = 0 := by
  unfold coefA
  refine Finset.sum_eq_zero ?_
  intro j _
  split
  · rename_i h
    unfold cj
    rw [zero_pow (by omega : j ≠ 0), zero_div, mul_zero]
  · rfl

lemma pAwayWin_at_v0 (x : ℝ) : pAwayWin x 0 = 0 := by
  rw [pAwayWin_eq]
  have h : polyMass coefA x 0 = 0 := by
    refine Finset.sum_eq_zero ?_
    intro i _
    rw [coefA_at_zero, zero_div, zero_mul]
  rw [h, zero_div]

/-- C7 counterexample: with the away lambda equal to zero (an admissible
rating, since solver ratings live in `[RatingMin, RatingMax]` with
`RatingMin = 0`), raising the home lambda from 1 to 2 leaves the normalized
away-win probability unchanged (it is identically zero), so `p_away_win`
does not strictly decrease as the claim requires. -/
theorem C7_counterexample :
    (1 : ℝ) < 2 ∧ ¬ (pAwayWin 2 0 < pAwayWin 1 0) := by
  refine ⟨by norm_num, ?_⟩
  rw [pAwayWin_at_v0, pAwayWin_at_v0]
  exact lt_irrefl 0

/-- C7 (amended): with the home lambda `rating + homeAdvantage` and away
lambda `rating` as built by `NewScoreMatrix`, and all quantities nonnegative,
raising the home team's rating strictly increases the normalized `p_home_win`
of `MatchOdds`, and strictly decreases `p_away_win` provided the away lambda
is positive; symmetrically, raising the away team's rating strictly increases
`p_away_win`, and strictly decreases `p_home_win` provided the home lambda is
positive. (The positivity provisos are necessary: at lambda zero the opposite
side's win probability is constantly zero.) -/
theorem C7_rating_monotonicity (rOld rNew other ha : ℝ)
    (h0 : 0 ≤ rOld) (hr : rOld < rNew) (hha : 0 ≤ ha) (hother : 0 ≤ other) :
    (pHomeWin (rOld + ha) other < pHomeWin (rNew + ha) other)
    ∧ (0 < other → pAwayWin (rNew + ha) other < pAwayWin (rOld + ha) other)
    ∧ (pAwayWin (other + ha) rOld < pAwayWin (other + ha) rNew)
    ∧ (0 < other + ha → pHomeWin (other + ha) rNew < pHomeWin (other + ha) rOld) := by
  have hx : 0 ≤ rOld + ha := by linarith
  have hxy : rOld + ha < rNew + ha := by linarith
  refine ⟨pHomeWin_strictMono hother hx hxy,
    fun hpos => pAwayWin_strictAnti hpos hx hxy, ?_, ?_⟩
  · rw [pAwayWin_swap rOld (other + ha), pAwayWin_swap rNew (other + ha)]
    exact pHomeWin_strictMono (by linarith) h0 hr
  · intro hpos
    rw [pHomeWin_swap rNew (other + ha), pHomeWin_swap rOld (other + ha)]
    exact pAwayWin_strictAnti hpos h0 hr

/-- Witness for C7 at ratings 0 < 1, opponent rating 1, home advantage 0. -/
theorem C7_rating_monotonicity_witness :
    ((0 : ℝ) ≤ 0) ∧ ((0 : ℝ) < 1) ∧
    ((pHomeWin ((0 : ℝ) + 0) 1 < pHomeWin ((1 : ℝ) + 0) 1)
      ∧ ((0 : ℝ) < 1 → pAwayWin ((1 : ℝ) + 0) 1 < pAwayWin ((0 : ℝ) + 0) 1)
      ∧ (pAwayWin ((1 : ℝ) + 0) 0 < pAwayWin ((1 : ℝ) + 0) 1)
      ∧ ((0 : ℝ) < 1 + 0 → pHomeWin ((1 : ℝ) + 0) 1 < pHomeWin ((1 : ℝ) + 0) 0)) :=
  ⟨le_refl 0, by norm_num,
    C7_rating_monotonicity 0 1 1 0 (le_refl 0) (by norm_num) (le_refl 0) (by norm_num)⟩

end

end Outrights
